import Mathlib

/-!
# Verification of the InDB IndexedDB wrapper

A shallow embedding of the InDB library (`src/test.js`, the library half of
the file) into Lean 4, together with theorems settling the frozen claims
about its specification.

JavaScript values are modelled by the inductive type `JSVal`.  Numbers are
modelled as integers (the records manipulated by the library in its tests
use integer and string fields only); non-integer numeric strings therefore
coerce to NaN in this model.  Strict equality `===` is modelled as
structural equality on `JSVal` — this is exact for primitives; reference
equality of distinct but structurally equal objects is not modelled (no
claim depends on it).
-/

namespace InDB

/-- A JavaScript value: `undefined`, `null`, booleans, (integer) numbers,
strings, arrays and plain objects (association lists of fields). -/
inductive JSVal : Type where
  | undef : JSVal
  | null : JSVal
  | bool : Bool → JSVal
  | num : Int → JSVal
  | str : String → JSVal
  | arr : List JSVal → JSVal
  | obj : List (String × JSVal) → JSVal
deriving Repr

mutual

def JSVal.beq : JSVal → JSVal → Bool
  | .undef, .undef => true
  | .null, .null => true
  | .bool a, .bool b => a == b
  | .num a, .num b => a == b
  | .str a, .str b => a == b
  | .arr a, .arr b => JSVal.beqList a b
  | .obj a, .obj b => JSVal.beqFields a b
  | _, _ => false

def JSVal.beqList : List JSVal → List JSVal → Bool
  | [], [] => true
  | a :: as, b :: bs => JSVal.beq a b && JSVal.beqList as bs
  | _, _ => false

def JSVal.beqFields : List (String × JSVal) → List (String × JSVal) → Bool
  | [], [] => true
  | (k, v) :: as, (k', v') :: bs => k == k' && JSVal.beq v v' && JSVal.beqFields as bs
  | _, _ => false

end

mutual

theorem JSVal.beq_iff : ∀ a b : JSVal, JSVal.beq a b = true ↔ a = b
  | .undef, b => by cases b <;> simp [JSVal.beq]
  | .null, b => by cases b <;> simp [JSVal.beq]
  | .bool x, b => by cases b <;> simp [JSVal.beq]
  | .num x, b => by cases b <;> simp [JSVal.beq]
  | .str x, b => by cases b <;> simp [JSVal.beq]
  | .arr xs, b => by
      cases b <;> simp [JSVal.beq]
      exact JSVal.beqList_iff xs _
  | .obj xs, b => by
      cases b <;> simp [JSVal.beq]
      exact JSVal.beqFields_iff xs _

theorem JSVal.beqList_iff : ∀ a b : List JSVal, JSVal.beqList a b = true ↔ a = b
  | [], b => by cases b <;> simp [JSVal.beqList]
  | x :: xs, b => by
      cases b with
      | nil => simp [JSVal.beqList]
      | cons y ys =>
          simp [JSVal.beqList, JSVal.beq_iff x y, JSVal.beqList_iff xs ys]

theorem JSVal.beqFields_iff : ∀ a b : List (String × JSVal), JSVal.beqFields a b = true ↔ a = b
  | [], b => by cases b <;> simp [JSVal.beqFields]
  | (k, v) :: xs, b => by
      cases b with
      | nil => simp [JSVal.beqFields]
      | cons y ys =>
          obtain ⟨k', v'⟩ := y
          simp [JSVal.beqFields, JSVal.beq_iff v v', JSVal.beqFields_iff xs ys, and_assoc]

end

instance : DecidableEq JSVal := fun a b =>
  decidable_of_iff (JSVal.beq a b = true) (JSVal.beq_iff a b)

/-- JavaScript falsiness: `undefined`, `null`, `false`, `0`, `''` are falsy;
everything else (all arrays and objects included) is truthy. -/
def jsFalsy : JSVal → Bool
  | .undef => true
  | .null => true
  | .bool b => !b
  | .num n => n == 0
  | .str s => s.isEmpty
  | .arr _ => false
  | .obj _ => false

def jsTruthy (v : JSVal) : Bool := !jsFalsy v

/-! ## String coercion (`toString`)

JavaScript `toString`: strings are themselves, numbers print in decimal,
arrays join their elements with `,` (with `undefined`/`null` elements
printing as the empty string), plain objects print as `[object Object]`. -/

mutual

def jsToString : JSVal → String
  | .undef => "undefined"
  | .null => "null"
  | .bool b => if b then "true" else "false"
  | .num n => toString n
  | .str s => s
  | .arr xs => jsToStringList xs
  | .obj _ => "[object Object]"

def jsToStringList : List JSVal → String
  | [] => ""
  | [.undef] => ""
  | [.null] => ""
  | [x] => jsToString x
  | .undef :: xs => "," ++ jsToStringList xs
  | .null :: xs => "," ++ jsToStringList xs
  | x :: xs => jsToString x ++ "," ++ jsToStringList xs

end

/-! ## The property-path parser (`src/test.js` lines 737–773)

`makeKeyChain(path)` is
`path.toString().split(/\.|\[|\]/).filter(item => !!item)`:
split at every `.`, `[` or `]` character and drop the empty segments. -/

def isSepChar (c : Char) : Bool := c == '.' || c == '[' || c == ']'

/-- Split a character list at every separator, keeping empty groups
(the groups between two adjacent separators), exactly like
`String.prototype.split` on a single-character alternative regex. -/
def splitChars (p : Char → Bool) : List Char → List (List Char)
  | [] => [[]]
  | c :: cs =>
    let r := splitChars p cs
    if p c then [] :: r
    else
      match r with
      | [] => [[c]]
      | g :: gs => (c :: g) :: gs

def makeKeyChain (path : String) : List String :=
  ((splitChars isSepChar path.toList).filter (fun cs => !cs.isEmpty)).map
    (fun cs => String.mk cs)

/-- All-decimal-digit character list to its numeric value
(`none` when empty or any character is not a digit).  Used to model
JavaScript's coercion of array-index property keys. -/
def digitsToNat : List Char → Option Nat
  | [] => none
  | [c] => if c.isDigit then some (c.toNat - 48) else none
  | c :: cs =>
    if c.isDigit then
      match digitsToNat cs with
      | some n => some ((c.toNat - 48) * 10 ^ cs.length + n)
      | none => none
    else none

def strToIndex (s : String) : Option Nat := digitsToNat s.toList

/-- First field of an object with the given key (JavaScript objects have at
most one field per key; association lists with duplicates take the first). -/
def lookupField : List (String × JSVal) → String → JSVal
  | [], _ => .undef
  | (k, v) :: rest, key => if k = key then v else lookupField rest key

/-- One JavaScript property access `target[key]`.  `none` models a thrown
`TypeError` (property access on `null` or `undefined`); `some .undef`
models a defined access that yields `undefined`.  Primitive booleans and
numbers have no own properties in this model; strings expose `length` and
single-character indexing; arrays expose `length` and numeric indexing
(array methods such as `push` are not modelled). -/
def getProp : JSVal → String → Option JSVal
  | .undef, _ => none
  | .null, _ => none
  | .bool _, _ => some .undef
  | .num _, _ => some .undef
  | .str s, key =>
    if key = "length" then some (.num s.toList.length)
    else
      match strToIndex key with
      | some i =>
        match s.toList.get? i with
        | some c => some (.str (String.mk [c]))
        | none => some .undef
      | none => some .undef
  | .arr xs, key =>
    if key = "length" then some (.num xs.length)
    else
      match strToIndex key with
      | some i => some (xs.getD i .undef)
      | none => some .undef
  | .obj fields, key => some (lookupField fields key)

/-- The key-chain walking loop of `parse`: for each key, evaluate
`target[key]`; if it is `undefined`, return `undefined`; otherwise descend.
An empty chain returns the current target (`if (!chain.length) return obj`). -/
def parseChain : JSVal → List String → Option JSVal
  | target, [] => some target
  | target, key :: rest =>
    match getProp target key with
    | none => none
    | some .undef => some .undef
    | some v => parseChain v rest

mutual

/-- `parse(obj, path)` from `src/test.js` lines 742–773: `undefined`/`null`
paths return `undefined`; an array path tries each entry and returns the
first result that is not `undefined`; any other path is stringified, split
into a key chain and walked.  `none` models a thrown `TypeError`. -/
def parse (o : JSVal) (path : JSVal) : Option JSVal :=
  match path with
  | .undef => some .undef
  | .null => some .undef
  | .arr items => parseList o items
  | p => parseChain o (makeKeyChain (jsToString p))

def parseList (o : JSVal) : List JSVal → Option JSVal
  | [] => some .undef
  | p :: rest =>
    match parse o p with
    | none => none
    | some .undef => parseList o rest
    | some v => some v

end

/-! ### No-null values -/

mutual

/-- No `null` occurs anywhere inside the value (and the value itself is not
`null`). -/
def noNull : JSVal → Bool
  | .null => false
  | .arr xs => noNullList xs
  | .obj fs => noNullFields fs
  | _ => true

def noNullList : List JSVal → Bool
  | [] => true
  | x :: xs => noNull x && noNullList xs

def noNullFields : List (String × JSVal) → Bool
  | [] => true
  | (_, v) :: fs => noNull v && noNullFields fs

end

theorem getProp_isSome (target : JSVal) (key : String)
    (h1 : target ≠ .undef) (h2 : target ≠ .null) : (getProp target key).isSome := by
  cases target with
  | undef => exact absurd rfl h1
  | null => exact absurd rfl h2
  | bool b => simp [getProp]
  | num n => simp [getProp]
  | str s =>
    simp only [getProp]
    split
    · simp
    · split
      · split <;> simp
      · simp
  | arr xs =>
    simp only [getProp]
    split
    · simp
    · split <;> simp
  | obj fs => simp [getProp]

theorem noNull_lookupField (fs : List (String × JSVal)) (key : String)
    (h : noNullFields fs = true) : noNull (lookupField fs key) = true := by
  induction fs with
  | nil => simp [lookupField, noNull]
  | cons kv rest ih =>
    obtain ⟨k, v⟩ := kv
    simp only [noNullFields, Bool.and_eq_true] at h
    by_cases hk : k = key
    · simpa [lookupField, hk] using h.1
    · simpa [lookupField, hk] using ih h.2

theorem noNull_getD (xs : List JSVal) (i : Nat)
    (h : noNullList xs = true) : noNull (xs.getD i .undef) = true := by
  induction xs generalizing i with
  | nil => simp [List.getD, noNull]
  | cons x rest ih =>
    simp only [noNullList, Bool.and_eq_true] at h
    cases i with
    | zero => simpa [List.getD] using h.1
    | succ n => simpa [List.getD] using ih n h.2

theorem noNull_getProp (target : JSVal) (key : String) (v : JSVal)
    (hn : noNull target = true) (hv : getProp target key = some v) : noNull v = true := by
  cases target with
  | undef => simp [getProp] at hv
  | null => simp [getProp] at hv
  | bool b => simp [getProp] at hv; simp [← hv, noNull]
  | num n => simp [getProp] at hv; simp [← hv, noNull]
  | str s =>
    simp only [getProp] at hv
    split at hv
    · simp at hv; simp [← hv, noNull]
    · split at hv
      · split at hv <;> (simp at hv; simp [← hv, noNull])
      · simp at hv; simp [← hv, noNull]
  | arr xs =>
    simp only [getProp] at hv
    split at hv
    · simp at hv; simp [← hv, noNull]
    · split at hv
      · simp only [Option.some.injEq] at hv
        subst hv
        exact noNull_getD xs _ (by simpa [noNull] using hn)
      · simp at hv; simp [← hv, noNull]
  | obj fields =>
    simp only [getProp, Option.some.injEq] at hv
    subst hv
    exact noNull_lookupField fields key (by simpa [noNull] using hn)

theorem parseChain_ne_none :
    ∀ (chain : List String) (target : JSVal),
      target ≠ .undef → noNull target = true → parseChain target chain ≠ none := by
  intro chain
  induction chain with
  | nil => intro target _ _; simp [parseChain]
  | cons key rest ih =>
    intro target h1 h2
    have hnn : target ≠ .null := by
      intro e; rw [e] at h2; simp [noNull] at h2
    obtain ⟨v, hv⟩ := Option.isSome_iff_exists.mp (getProp_isSome target key h1 hnn)
    have hnv : noNull v = true := noNull_getProp target key v h2 hv
    cases v with
    | undef => simp [parseChain, hv]
    | null => simp [noNull] at hnv
    | bool b => simpa [parseChain, hv] using ih (.bool b) (by simp) hnv
    | num n => simpa [parseChain, hv] using ih (.num n) (by simp) hnv
    | str s => simpa [parseChain, hv] using ih (.str s) (by simp) hnv
    | arr xs => simpa [parseChain, hv] using ih (.arr xs) (by simp) hnv
    | obj fs => simpa [parseChain, hv] using ih (.obj fs) (by simp) hnv

mutual

theorem parse_ne_none :
    ∀ (o : JSVal) (path : JSVal), o ≠ .undef → noNull o = true → parse o path ≠ none
  | o, .undef, _, _ => by simp [parse]
  | o, .null, _, _ => by simp [parse]
  | o, .bool b, h1, h2 => by
    simpa [parse] using parseChain_ne_none (makeKeyChain (jsToString (.bool b))) o h1 h2
  | o, .num n, h1, h2 => by
    simpa [parse] using parseChain_ne_none (makeKeyChain (jsToString (.num n))) o h1 h2
  | o, .str s, h1, h2 => by
    simpa [parse] using parseChain_ne_none (makeKeyChain (jsToString (.str s))) o h1 h2
  | o, .obj fs, h1, h2 => by
    simpa [parse] using parseChain_ne_none (makeKeyChain (jsToString (.obj fs))) o h1 h2
  | o, .arr items, h1, h2 => by
    simpa [parse] using parseList_ne_none o items h1 h2

theorem parseList_ne_none :
    ∀ (o : JSVal) (ps : List JSVal), o ≠ .undef → noNull o = true → parseList o ps ≠ none
  | o, [], _, _ => by simp [parseList]
  | o, p :: rest, h1, h2 => by
    have hp := parse_ne_none o p h1 h2
    have hr := parseList_ne_none o rest h1 h2
    rw [parseList]
    cases hpv : parse o p with
    | none => exact absurd hpv hp
    | some v => cases v <;> simp_all

end

/-! ## Claim C8 -/

/-- C8, counterexample to the claim as stated.  The claim says path
resolution "never fails" and that "any missing segment yields undefined
without throwing".  On the object `{a: null}` with path `'a.b'` the guard
`target[key] === undefined` does not catch the `null` stored at `a`
(`null !== undefined`), so the next iteration evaluates `null['b']`, which
throws a `TypeError` (modelled by `none`) instead of returning
`undefined`. -/
theorem claimC8_counterexample :
    parse (.obj [("a", JSVal.null)]) (.str "a.b") = none := by
  simp [parse, jsToString, parseChain, makeKeyChain, splitChars, isSepChar, getProp,
    lookupField]

/-- C8 (amended).  The path parser resolves a dotted/bracketed string such
as `'a.b[0].c'` by splitting it into its segments and performing successive
nested object/array accesses; a list-of-paths value resolves to the result
of the first path in the list that yields a defined value (`undefined` if
none does); a segment whose access yields `undefined` makes resolution
return `undefined` without throwing; and — amending the claim, which is
violated when an intermediate value is `null` — resolution never fails on
any object that contains no `null` values. -/
theorem claimC8_path_resolution :
    (∀ (o : JSVal) (s : String), parse o (.str s) = parseChain o (makeKeyChain s)) ∧
    makeKeyChain "a.b[0].c" = ["a", "b", "0", "c"] ∧
    (∀ (target : JSVal) (key : String) (rest : List String),
      getProp target key = some .undef → parseChain target (key :: rest) = some .undef) ∧
    (∀ (o : JSVal) (ps : List JSVal), parse o (.arr ps) = parseList o ps) ∧
    (∀ (o p : JSVal) (rest : List JSVal) (v : JSVal),
      parse o p = some v → v ≠ .undef → parseList o (p :: rest) = some v) ∧
    (∀ (o p : JSVal) (rest : List JSVal),
      parse o p = some .undef → parseList o (p :: rest) = parseList o rest) ∧
    (∀ o : JSVal, parseList o [] = some .undef) ∧
    (∀ (o path : JSVal), o ≠ .undef → noNull o = true → parse o path ≠ none) := by
  refine ⟨?_, ?_, ?_, ?_, ?_, ?_, ?_, ?_⟩
  · intro o s; simp [parse, jsToString]
  · simp [makeKeyChain, splitChars, isSepChar]
  · intro target key rest h; simp [parseChain, h]
  · intro o ps; simp [parse]
  · intro o p rest v h hv
    rw [parseList, h]
    cases v <;> simp_all
  · intro o p rest h
    rw [parseList, h]
  · intro o; simp [parseList]
  · exact fun o path => parse_ne_none o path

/-- Witness for C8: the amended theorem applied at concrete inputs,
discharging its hypotheses. -/
theorem claimC8_witness :
    parseChain (.obj [("a", JSVal.num 1)]) ["q", "r"] = some .undef ∧
    parseList (.obj [("a", JSVal.num 1)]) [.str "a", .str "z"] = some (.num 1) ∧
    parse (.obj [("a", JSVal.num 1)]) (.str "a.b") ≠ none :=
  ⟨claimC8_path_resolution.2.2.1 (.obj [("a", JSVal.num 1)]) "q" ["r"]
      (by simp [getProp, lookupField]),
   claimC8_path_resolution.2.2.2.2.1 (.obj [("a", JSVal.num 1)]) (.str "a") [.str "z"]
      (.num 1)
      (by simp [parse, jsToString, parseChain, makeKeyChain, splitChars, isSepChar,
        getProp, lookupField])
      (by simp),
   claimC8_path_resolution.2.2.2.2.2.2.2 (.obj [("a", JSVal.num 1)]) (.str "a.b")
      (by simp) (by simp [noNull, noNullFields])⟩

/-! ## Paged windows: `some(count, offset)` (`src/test.js` lines 401–438)

`some` iterates a cursor over the store (forward, or backward when
`offset < 0`), keeping a counter `i`: records with `i < start` are skipped,
records with `i < end` are collected, and the scan stops at `i = end`.
The store contents are modelled as the list of records in forward cursor
iteration order; the backward scan iterates the reversed list. -/

/-- The cursor loop of `some`: skip while `i < start`, collect while
`i < stop`, then stop. -/
def someScan {α : Type} (start stop : Int) : List α → Int → List α
  | [], _ => []
  | x :: rest, i =>
    if i < start then someScan start stop rest (i + 1)
    else if i < stop then x :: someScan start stop rest (i + 1)
    else []

/-- `InDBStore.some(count, offset)`.  For `offset < 0` the direction is
`'prev'`, `count` is clamped to `min(count, -offset)`, the window is
`[start, end)` with `start = -(offset + count)` (the `|| 0` in the source
only normalises JavaScript's `-0`, which does not exist on `Int`), and the
collected slice is reversed back into forward order. -/
def InDBStore.some {α : Type} (store : List α) (count offset : Int) : List α :=
  if offset < 0 then
    let count2 := min count (-offset)
    let start := -(offset + count2)
    let stop := start + count2
    (someScan start stop store.reverse 0).reverse
  else
    someScan offset (offset + count) store 0

theorem someScan_ge {α : Type} (l : List α) (start stop : Int) :
    ∀ i : Int, start ≤ i → someScan start stop l i = l.take (stop - i).toNat := by
  induction l with
  | nil => intro i _; simp [someScan]
  | cons x rest ih =>
    intro i h
    rw [someScan]
    rw [if_neg (by omega)]
    by_cases hc : i < stop
    · rw [if_pos hc, ih (i + 1) (by omega)]
      rw [show (stop - i).toNat = (stop - (i + 1)).toNat + 1 from by omega]
      simp
    · rw [if_neg hc]
      rw [show (stop - i).toNat = 0 from by omega]
      simp

theorem someScan_le {α : Type} (l : List α) (start stop : Int) :
    ∀ i : Int, i ≤ start →
      someScan start stop l i = (l.drop (start - i).toNat).take (stop - start).toNat := by
  induction l with
  | nil => intro i _; simp [someScan]
  | cons x rest ih =>
    intro i h
    by_cases hs : i < start
    · rw [someScan, if_pos hs, ih (i + 1) (by omega)]
      rw [show (start - i).toNat = (start - (i + 1)).toNat + 1 from by omega]
      simp
    · have hi : i = start := by omega
      rw [hi, someScan_ge (x :: rest) start stop start le_rfl]
      rw [show (start - start).toNat = 0 from by omega]
      simp

theorem some_neg_def {α : Type} (store : List α) (count offset : Int) (h : offset < 0) :
    InDBStore.some store count offset =
      (someScan (-(offset + min count (-offset)))
        (-(offset + min count (-offset)) + min count (-offset)) store.reverse 0).reverse := by
  rw [InDBStore.some, if_pos h]

/-! ## Claim C1 -/

/-- C1.  `some(count, offset)` with `offset ≥ 0` returns the records at
forward positions `offset .. offset+count-1` (fewer if the store runs out);
with `offset < 0` (and the store long enough to have a position `-offset`
from the end) it returns up to `min(count, -offset)` records ending at
position `-offset` from the end, in forward iteration order.  On a store
holding records `2,3,4,5` in order, `some(2)` returns `2,3`; `some(2,1)`
returns `3,4`; and `some(2,-1)` returns `5` only. -/
theorem claimC1_some_window :
    (∀ (α : Type) (store : List α) (count offset : Int), 0 ≤ offset →
      InDBStore.some store count offset = (store.drop offset.toNat).take count.toNat) ∧
    (∀ (α : Type) (store : List α) (count offset : Int), offset < 0 →
      (-offset).toNat ≤ store.length →
      InDBStore.some store count offset =
        (store.drop (store.length - (-offset).toNat)).take (min count (-offset)).toNat) ∧
    InDBStore.some [2, 3, 4, 5] 2 0 = ([2, 3] : List Int) ∧
    InDBStore.some [2, 3, 4, 5] 2 1 = ([3, 4] : List Int) ∧
    InDBStore.some [2, 3, 4, 5] 2 (-1) = ([5] : List Int) := by
  refine ⟨?_, ?_, by rfl, by rfl, by rfl⟩
  · intro α store count offset h
    rw [InDBStore.some, if_neg (by omega), someScan_le store offset (offset + count) 0 h]
    congr 1
    · congr 1; omega
    · congr 1; omega
  · intro α store count offset hoff hlen
    rw [some_neg_def store count offset hoff]
    have hc0 : min count (-offset) ≤ -offset := min_le_right _ _
    rw [someScan_le store.reverse (-(offset + min count (-offset)))
      (-(offset + min count (-offset)) + min count (-offset)) 0 (by omega)]
    rcases le_or_lt 0 count with hcnt | hcnt
    · -- count ≥ 0: the clamped count is non-negative and at most -offset
      have hcn : (0 : Int) ≤ min count (-offset) := le_min hcnt (by omega)
      set c : Int := min count (-offset) with hc
      set m : Nat := (-offset).toNat with hm
      have h1 : (-(offset + c) - 0).toNat = m - c.toNat := by omega
      have h2 : (-(offset + c) + c - -(offset + c)).toNat = c.toNat := by omega
      rw [h1, h2, List.drop_reverse, List.take_reverse, List.reverse_reverse]
      have hlt : (store.take (store.length - (m - c.toNat))).length
          = store.length - (m - c.toNat) := by
        simp [List.length_take]
      rw [hlt, List.drop_take]
      have hcm : c.toNat ≤ m := by omega
      congr 1
      · omega
      · congr 1
        omega
    · -- count < 0: the window is empty on both sides
      have h2 : (-(offset + min count (-offset)) + min count (-offset)
          - -(offset + min count (-offset))).toNat = 0 := by omega
      rw [h2]
      have h3 : (min count (-offset)).toNat = 0 := by omega
      rw [h3]
      simp

/-- Witness for C1: the window theorem applied at concrete stores, counts
and offsets, discharging its hypotheses. -/
theorem claimC1_witness :
    InDBStore.some [10, 20, 30, 40, 50] 3 1 = ([20, 30, 40] : List Int) ∧
    InDBStore.some [10, 20, 30, 40, 50] 2 (-3) = ([30, 40] : List Int) :=
  ⟨(claimC1_some_window.1 Int [10, 20, 30, 40, 50] 3 1 (by decide)).trans (by rfl),
   (claimC1_some_window.2.1 Int [10, 20, 30, 40, 50] 2 (-3) (by decide)
      (by decide)).trans (by rfl)⟩

/-! ## JavaScript comparison operators

The relational operators used by `compareAandB` and `query`.  Both-string
comparisons are lexicographic; otherwise both sides coerce to numbers and
a NaN on either side makes the comparison false.  With numbers modelled as
integers, a non-integer numeric string coerces to NaN; arrays and objects
also coerce to NaN in this model (no claim compares them relationally). -/

/-- JavaScript `Number(string)` restricted to integers: empty string → 0,
optional minus sign followed by digits → that integer, otherwise NaN
(`none`). -/
def strToNumber (s : String) : Option Int :=
  match s.toList with
  | [] => some 0
  | '-' :: cs =>
    (match digitsToNat cs with
     | some n => some (-(n : Int))
     | none => none)
  | cs =>
    (match digitsToNat cs with
     | some n => some ((n : Int))
     | none => none)

/-- JavaScript `ToNumber`; `none` is NaN. -/
def toNumber : JSVal → Option Int
  | .undef => none
  | .null => some 0
  | .bool b => some (if b then 1 else 0)
  | .num n => some n
  | .str s => strToNumber s
  | .arr _ => none
  | .obj _ => none

/-- JavaScript `a < b`. -/
def jsLt : JSVal → JSVal → Bool
  | .str s1, .str s2 => decide (s1 < s2)
  | a, b =>
    match toNumber a, toNumber b with
    | some x, some y => decide (x < y)
    | _, _ => false

/-- JavaScript `a <= b`. -/
def jsLe : JSVal → JSVal → Bool
  | .str s1, .str s2 => decide (s1 ≤ s2)
  | a, b =>
    match toNumber a, toNumber b with
    | some x, some y => decide (x ≤ y)
    | _, _ => false

/-- JavaScript `a > b` (the relational comparison with swapped operands). -/
def jsGt (a b : JSVal) : Bool := jsLt b a

/-- JavaScript `a >= b`. -/
def jsGe (a b : JSVal) : Bool := jsLe b a

def charListPrefixOf : List Char → List Char → Bool
  | [], _ => true
  | _ :: _, [] => false
  | c :: cs, d :: ds => c == d && charListPrefixOf cs ds

def charListContainsSub : List Char → List Char → Bool
  | [], nee => nee.isEmpty
  | c :: rest, nee => charListPrefixOf nee (c :: rest) || charListContainsSub rest nee

/-- JavaScript `hay.indexOf(nee) > -1` for strings (substring containment;
the empty needle is always contained). -/
def strContains (hay nee : String) : Bool := charListContainsSub hay.toList nee.toList

/-- JavaScript `xs.indexOf(v) > -1` for an array, with `===` element
comparison (structural equality in this model). -/
def jsArrayHas : List JSVal → JSVal → Bool
  | [], _ => false
  | x :: xs, v => JSVal.beq x v || jsArrayHas xs v

/-! ## `select` (`src/test.js` lines 537–634) -/

/-- A declared index: `{name, keyPath, unique}`; an absent `keyPath` is
`undefined`. -/
structure IndexDecl where
  name : String
  keyPath : JSVal
  unique : Bool
deriving Repr, DecidableEq

/-- One `select` condition `{key, value, compare, optional}`; an absent
`compare` is `undefined` (`none`), taking the `switch` default (`===`). -/
structure Condition where
  key : String
  value : JSVal
  compare : Option String
  optional : Bool
deriving Repr

/-- A compiled condition `{keyPath, value, compare}` as pushed onto
`and_conditions` / `or_conditions`. -/
structure CondC where
  keyPath : JSVal
  value : JSVal
  compare : Option String
deriving Repr

/-- `compareAandB(a, b, compare)` (`src/test.js` lines 546–568).  An
`undefined` left operand fails every comparator; `!=` is `!==` and the
default is `===` (structural equality in this model); `%` requires the left
side to be a string containing the stringification of `b`; `in` requires
`b` to be an array containing `a`. -/
def compareAandB (a b : JSVal) (compare : Option String) : Bool :=
  match a with
  | .undef => false
  | a =>
    match compare with
    | some ">" => jsGt a b
    | some ">=" => jsGe a b
    | some "<" => jsLt a b
    | some "<=" => jsLe a b
    | some "!=" => !(JSVal.beq a b)
    | some "%" =>
      (match a with
       | .str s => strContains s (jsToString b)
       | _ => false)
    | some "in" =>
      (match b with
       | .arr xs => jsArrayHas xs a
       | _ => false)
    | _ => JSVal.beq a b

/-- `indexesMapping[key]`: the `forEach` writes `mapping[name] = keyPath`,
so a later index with the same name overwrites an earlier one. -/
def indexesMapping (indexes : List IndexDecl) (key : String) : JSVal :=
  List.foldl (fun acc it => if it.name = key then it.keyPath else acc) JSVal.undef indexes

/-- `indexesMapping[key] || key`: the declared index `keyPath` when it is
truthy, else the original key used as a literal property path. -/
def condKeyPath (indexes : List IndexDecl) (key : String) : JSVal :=
  let v := indexesMapping indexes key
  if jsTruthy v then v else .str key

/-- Partition one argument group into `and_conditions` and
`or_conditions`, in order, resolving each key through the index mapping. -/
def splitConds (indexes : List IndexDecl) : List Condition → List CondC × List CondC
  | [] => ([], [])
  | c :: rest =>
    let (ands, ors) := splitConds indexes rest
    let kp := condKeyPath indexes c.key
    if c.optional then (ands, ⟨kp, c.value, c.compare⟩ :: ors)
    else (⟨kp, c.value, c.compare⟩ :: ands, ors)

/-- The `and_conditions` loop of `determine`: every condition must hold;
`none` models a `TypeError` thrown by `parse`. -/
def andLoop (o : JSVal) : List CondC → Option Bool
  | [] => some true
  | c :: rest =>
    match parse o c.keyPath with
    | none => none
    | some cur => if compareAandB cur c.value c.compare then andLoop o rest else some false

/-- The `or_conditions` loop of `determine`: some condition must hold. -/
def orLoop (o : JSVal) : List CondC → Option Bool
  | [] => some false
  | c :: rest =>
    match parse o c.keyPath with
    | none => none
    | some cur => if compareAandB cur c.value c.compare then some true else orLoop o rest

/-- `determine(obj, and_conditions, or_conditions)` (`src/test.js` lines
570–596): a group with no conditions at all is `false`; otherwise all
required conditions must hold, and if any optional conditions exist, at
least one of them must hold. -/
def determine (o : JSVal) (ands ors : List CondC) : Option Bool :=
  if ands.isEmpty && ors.isEmpty then some false
  else
    match andLoop o ands with
    | none => none
    | some false => some false
    | some true => if ors.isEmpty then some true else orLoop o ors

/-- The `isOk` loop of `select`: the record matches if any group's
`determine` returns true. -/
def isOk (o : JSVal) : List (List CondC × List CondC) → Option Bool
  | [] => some false
  | g :: rest =>
    match determine o g.1 g.2 with
    | none => none
    | some true => some true
    | some false => isOk o rest

def mkGroups (indexes : List IndexDecl) (rules : List (List Condition)) :
    List (List CondC × List CondC) :=
  rules.map (splitConds indexes)

/-- The full `each` scan of `select`, filtering the store through `isOk`;
`none` models the promise rejecting because a condition evaluation threw. -/
def selectScan (groups : List (List CondC × List CondC)) : List JSVal → Option (List JSVal)
  | [] => some []
  | r :: rest =>
    match isOk r groups with
    | none => none
    | some b =>
      match selectScan groups rest with
      | none => none
      | some rs => some (if b then r :: rs else rs)

/-- `select(...rules)` on a store whose records, in forward iteration
order, are `store`, for a store descriptor declaring `indexes`. -/
def InDBStore.select (indexes : List IndexDecl) (store : List JSVal)
    (rules : List (List Condition)) : Option (List JSVal) :=
  selectScan (mkGroups indexes rules) store

/-- One compiled condition holds on a record: `compareAandB` applied to the
value resolved at its key path (a thrown resolution counts as not
holding). -/
def condHolds (o : JSVal) (c : CondC) : Bool :=
  compareAandB ((parse o c.keyPath).getD .undef) c.value c.compare

/-- The claim's acceptance predicate for one argument group, stated on the
group's original conditions: the group is non-empty, all non-optional
conditions hold, and if any optional condition is present then at least one
optional condition holds. -/
def ruleGroupAccepts (indexes : List IndexDecl) (o : JSVal) (conds : List Condition) : Prop :=
  conds ≠ [] ∧
  (∀ c ∈ conds, c.optional = false →
    condHolds o ⟨condKeyPath indexes c.key, c.value, c.compare⟩ = true) ∧
  ((∃ c ∈ conds, c.optional = true) →
    ∃ c ∈ conds, c.optional = true ∧
      condHolds o ⟨condKeyPath indexes c.key, c.value, c.compare⟩ = true)

/-- The acceptance predicate on an already-partitioned group. -/
def groupAccepts (o : JSVal) (g : List CondC × List CondC) : Prop :=
  (g.1 ≠ [] ∨ g.2 ≠ []) ∧ (∀ c ∈ g.1, condHolds o c = true) ∧
    (g.2 ≠ [] → ∃ c ∈ g.2, condHolds o c = true)

def condOfRule (indexes : List IndexDecl) (c : Condition) : CondC :=
  ⟨condKeyPath indexes c.key, c.value, c.compare⟩

theorem splitConds_eq (indexes : List IndexDecl) (conds : List Condition) :
    splitConds indexes conds =
      ((conds.filter (fun c => !c.optional)).map (condOfRule indexes),
       (conds.filter (fun c => c.optional)).map (condOfRule indexes)) := by
  induction conds with
  | nil => simp [splitConds]
  | cons c rest ih =>
    rw [splitConds, ih]
    by_cases hopt : c.optional = true
    · simp [hopt, List.filter_cons, condOfRule]
    · simp [hopt, List.filter_cons, condOfRule]

theorem andLoop_spec (o : JSVal) :
    ∀ (l : List CondC) (b : Bool), andLoop o l = some b →
      (b = true ↔ ∀ c ∈ l, condHolds o c = true) := by
  intro l
  induction l with
  | nil =>
    intro b hb
    rw [andLoop] at hb
    simp only [Option.some.injEq] at hb
    simp [hb.symm]
  | cons c rest ih =>
    intro b hb
    rw [andLoop] at hb
    split at hb
    · exact absurd hb (by simp)
    · rename_i cur hp
      split at hb
      · rename_i hc
        have hh : condHolds o c = true := by simp [condHolds, hp, hc]
        simp only [List.mem_cons, forall_eq_or_imp, hh, true_and]
        exact ih b hb
      · rename_i hc
        simp only [Option.some.injEq] at hb
        have hh : condHolds o c = false := by
          rw [condHolds, hp, Option.getD_some]
          exact Bool.eq_false_iff.mpr hc
        subst hb
        simp [hh]

theorem orLoop_spec (o : JSVal) :
    ∀ (l : List CondC) (b : Bool), orLoop o l = some b →
      (b = true ↔ ∃ c ∈ l, condHolds o c = true) := by
  intro l
  induction l with
  | nil =>
    intro b hb
    rw [orLoop] at hb
    simp only [Option.some.injEq] at hb
    simp [hb.symm]
  | cons c rest ih =>
    intro b hb
    rw [orLoop] at hb
    split at hb
    · exact absurd hb (by simp)
    · rename_i cur hp
      split at hb
      · rename_i hc
        simp only [Option.some.injEq] at hb
        have hh : condHolds o c = true := by simp [condHolds, hp, hc]
        subst hb
        simp only [List.mem_cons, true_iff]
        exact ⟨c, Or.inl rfl, hh⟩
      · rename_i hc
        have hh : condHolds o c = false := by
          rw [condHolds, hp, Option.getD_some]
          exact Bool.eq_false_iff.mpr hc
        rw [ih b hb]
        constructor
        · rintro ⟨c', hmem, hcc⟩; exact ⟨c', List.mem_cons_of_mem _ hmem, hcc⟩
        · rintro ⟨c', hmem, hcc⟩
          rcases List.mem_cons.mp hmem with he | hm
          · subst he; rw [hh] at hcc; cases hcc
          · exact ⟨c', hm, hcc⟩

theorem determine_spec (o : JSVal) (ands ors : List CondC) (b : Bool)
    (h : determine o ands ors = some b) :
    (b = true ↔ groupAccepts o (ands, ors)) := by
  rw [determine] at h
  by_cases hemp : (ands.isEmpty && ors.isEmpty) = true
  · rw [if_pos hemp] at h
    simp only [Option.some.injEq] at h
    subst h
    simp only [Bool.and_eq_true, List.isEmpty_iff] at hemp
    simp [groupAccepts, hemp.1, hemp.2]
  · rw [if_neg hemp] at h
    split at h
    · exact absurd h (by simp)
    · -- andLoop returned false
      rename_i ha
      simp only [Option.some.injEq] at h
      subst h
      have hnot := andLoop_spec o ands false ha
      simp only [Bool.false_eq_true, false_iff] at hnot
      simp only [Bool.false_eq_true, false_iff]
      intro hacc
      exact hnot hacc.2.1
    · -- andLoop returned true
      rename_i ha
      have hall := (andLoop_spec o ands true ha).mp rfl
      simp only [Bool.and_eq_true, not_and_or, List.isEmpty_iff] at hemp
      by_cases hoe : ors.isEmpty = true
      · rw [if_pos hoe] at h
        simp only [Option.some.injEq] at h
        subst h
        rw [List.isEmpty_iff] at hoe
        have hane : ands ≠ [] := by
          rcases hemp with h1 | h1
          · exact h1
          · exact absurd hoe h1
        constructor
        · intro _
          exact ⟨Or.inl hane, hall, fun hne => absurd hoe hne⟩
        · intro _
          rfl
      · rw [if_neg hoe] at h
        have hone : ors ≠ [] := by
          intro hnil
          exact hoe (by simp [hnil])
        rw [orLoop_spec o ors b h]
        simp only [groupAccepts]
        constructor
        · intro hex
          exact ⟨Or.inr hone, hall, fun _ => hex⟩
        · rintro ⟨_, _, hopt⟩
          exact hopt hone

theorem isOk_spec (o : JSVal) :
    ∀ (groups : List (List CondC × List CondC)) (b : Bool), isOk o groups = some b →
      (b = true ↔ ∃ g ∈ groups, groupAccepts o g) := by
  intro groups
  induction groups with
  | nil =>
    intro b hb
    rw [isOk] at hb
    simp only [Option.some.injEq] at hb
    simp [hb.symm]
  | cons g rest ih =>
    intro b hb
    rw [isOk] at hb
    split at hb
    · exact absurd hb (by simp)
    · rename_i hd
      simp only [Option.some.injEq] at hb
      subst hb
      have hg := (determine_spec o g.1 g.2 true hd).mp rfl
      simp only [List.mem_cons, true_iff]
      exact ⟨g, Or.inl rfl, hg⟩
    · rename_i hd
      have hng := determine_spec o g.1 g.2 false hd
      simp only [Bool.false_eq_true, false_iff] at hng
      rw [ih b hb]
      constructor
      · rintro ⟨g', hm, hg⟩; exact ⟨g', List.mem_cons_of_mem _ hm, hg⟩
      · rintro ⟨g', hm, hg⟩
        rcases List.mem_cons.mp hm with he | hm'
        · subst he; exact absurd hg hng
        · exact ⟨g', hm', hg⟩

theorem selectScan_spec (groups : List (List CondC × List CondC)) :
    ∀ (store res : List JSVal), selectScan groups store = some res →
      ∀ r : JSVal, r ∈ res ↔ r ∈ store ∧ ∃ g ∈ groups, groupAccepts r g := by
  intro store
  induction store with
  | nil =>
    intro res h r
    rw [selectScan] at h
    simp only [Option.some.injEq] at h
    subst h
    simp
  | cons x rest ih =>
    intro res h r
    rw [selectScan] at h
    split at h
    · exact absurd h (by simp)
    · rename_i b hok
      split at h
      · exact absurd h (by simp)
      · rename_i rs hrs
        simp only [Option.some.injEq] at h
        subst h
        cases b with
        | false =>
          have hnacc := isOk_spec x groups false hok
          simp only [Bool.false_eq_true, false_iff] at hnacc
          rw [if_neg Bool.false_ne_true, ih rs hrs r]
          constructor
          · rintro ⟨hm, hacc⟩
            exact ⟨List.mem_cons_of_mem _ hm, hacc⟩
          · rintro ⟨hmx, hacc⟩
            rcases List.mem_cons.mp hmx with he | hm'
            · subst he; exact absurd hacc hnacc
            · exact ⟨hm', hacc⟩
        | true =>
          have hacc := (isOk_spec x groups true hok).mp rfl
          rw [if_pos rfl]
          constructor
          · intro hrm
            rcases List.mem_cons.mp hrm with he | hm
            · subst he
              exact ⟨List.mem_cons_self _ _, hacc⟩
            · have hir := (ih rs hrs r).mp hm
              exact ⟨List.mem_cons_of_mem _ hir.1, hir.2⟩
          · rintro ⟨hmx, haccr⟩
            rcases List.mem_cons.mp hmx with he | hm'
            · subst he
              exact List.mem_cons_self _ _
            · exact List.mem_cons_of_mem _ ((ih rs hrs r).mpr ⟨hm', haccr⟩)

theorem ruleGroupAccepts_iff (indexes : List IndexDecl) (o : JSVal) (conds : List Condition) :
    ruleGroupAccepts indexes o conds ↔ groupAccepts o (splitConds indexes conds) := by
  rw [splitConds_eq]
  simp only [ruleGroupAccepts, groupAccepts]
  constructor
  · rintro ⟨hne, hand, hor⟩
    refine ⟨?_, ?_, ?_⟩
    · rcases conds with _ | ⟨c, rest⟩
      · exact absurd rfl hne
      · by_cases hco : c.optional = true
        · right
          exact List.ne_nil_of_mem
            (List.mem_map_of_mem _ (List.mem_filter.mpr ⟨List.mem_cons_self c rest, hco⟩))
        · left
          exact List.ne_nil_of_mem
            (List.mem_map_of_mem _
              (List.mem_filter.mpr ⟨List.mem_cons_self c rest, by simp [hco]⟩))
    · intro c' hc'
      simp only [List.mem_map, List.mem_filter] at hc'
      obtain ⟨c, ⟨hcm, hcno⟩, rfl⟩ := hc'
      exact hand c hcm (by simpa using hcno)
    · intro hne2
      have hex : ∃ c ∈ conds, c.optional = true := by
        rcases hme : (conds.filter (fun c => c.optional)).map (condOfRule indexes) with _ | ⟨c', l⟩
        · exact absurd hme hne2
        · have hc' : c' ∈ (conds.filter (fun c => c.optional)).map (condOfRule indexes) := by
            rw [hme]; exact List.mem_cons_self _ _
          simp only [List.mem_map, List.mem_filter] at hc'
          obtain ⟨c, ⟨hcm, hco⟩, _⟩ := hc'
          exact ⟨c, hcm, hco⟩
      obtain ⟨c, hcm, hco, hch⟩ := hor hex
      refine ⟨condOfRule indexes c, ?_, hch⟩
      exact List.mem_map_of_mem _ (List.mem_filter.mpr ⟨hcm, hco⟩)
  · rintro ⟨hne, hand, hor⟩
    refine ⟨?_, ?_, ?_⟩
    · rintro rfl
      simp at hne
    · intro c hcm hcno
      exact hand (condOfRule indexes c)
        (List.mem_map_of_mem _ (List.mem_filter.mpr ⟨hcm, by simp [hcno]⟩))
    · intro hex
      have hne2 : (conds.filter (fun c => c.optional)).map (condOfRule indexes) ≠ [] := by
        obtain ⟨c, hcm, hco⟩ := hex
        exact List.ne_nil_of_mem
          (List.mem_map_of_mem _ (List.mem_filter.mpr ⟨hcm, hco⟩))
      obtain ⟨c', hc'm, hc'h⟩ := hor hne2
      simp only [List.mem_map, List.mem_filter] at hc'm
      obtain ⟨c, ⟨hcm, hco⟩, rfl⟩ := hc'm
      exact ⟨c, hcm, hco, hc'h⟩

theorem isOk_of_all_empty (o : JSVal) :
    ∀ (groups : List (List CondC × List CondC)), (∀ g ∈ groups, g = ([], [])) →
      isOk o groups = some false := by
  intro groups
  induction groups with
  | nil => intro _; rw [isOk]
  | cons g rest ih =>
    intro hall
    have hg := hall g (List.mem_cons_self _ _)
    subst hg
    have hd : determine o ([] : List CondC) ([] : List CondC) = some false := by
      rw [determine]
      simp
    rw [isOk]
    simp only [hd]
    exact ih (fun g' hg' => hall g' (List.mem_cons_of_mem _ hg'))

theorem selectScan_all_false (groups : List (List CondC × List CondC))
    (h : ∀ o : JSVal, isOk o groups = some false) :
    ∀ store : List JSVal, selectScan groups store = some [] := by
  intro store
  induction store with
  | nil => rw [selectScan]
  | cons x rest ih =>
    rw [selectScan]
    simp only [h x, ih]
    rw [if_neg Bool.false_ne_true]

/-! ## Claim C2 -/

/-- C2.  A record is in `select(...groups)`'s result exactly when it is in
the store and at least one argument group accepts it, where a group accepts
a record iff all of its non-optional conditions hold and, when at least one
optional condition is present, at least one optional condition also holds;
a group with no conditions accepts no record, so a `select` of only empty
groups (or no groups) returns the empty list.  (Stated for calls whose
condition evaluation does not throw, i.e. whose `select` resolves with a
result.) -/
theorem claimC2_select_or_groups :
    (∀ (indexes : List IndexDecl) (store : List JSVal) (rules : List (List Condition))
        (res : List JSVal),
      InDBStore.select indexes store rules = some res →
      ∀ r : JSVal, r ∈ res ↔ r ∈ store ∧ ∃ conds ∈ rules, ruleGroupAccepts indexes r conds) ∧
    (∀ (indexes : List IndexDecl) (store : List JSVal) (rules : List (List Condition)),
      (∀ conds ∈ rules, conds = []) → InDBStore.select indexes store rules = some []) := by
  constructor
  · intro indexes store rules res h r
    rw [InDBStore.select] at h
    rw [selectScan_spec _ store res h r]
    simp only [mkGroups, List.mem_map]
    constructor
    · rintro ⟨hm, g, ⟨conds, hcm, rfl⟩, hg⟩
      exact ⟨hm, conds, hcm, (ruleGroupAccepts_iff _ _ _).mpr hg⟩
    · rintro ⟨hm, conds, hcm, hg⟩
      exact ⟨hm, splitConds indexes conds, ⟨conds, hcm, rfl⟩,
        (ruleGroupAccepts_iff _ _ _).mp hg⟩
  · intro indexes store rules hall
    rw [InDBStore.select]
    refine selectScan_all_false _ (fun o => isOk_of_all_empty o _ ?_) store
    intro g hg
    simp only [mkGroups, List.mem_map] at hg
    obtain ⟨conds, hcm, rfl⟩ := hg
    rw [hall conds hcm]
    rfl

/-- Witness for C2: the membership theorem applied at a concrete store and
concrete condition groups, discharging its hypotheses. -/
theorem claimC2_witness :
    (JSVal.obj [("age", JSVal.num 10)] ∈
        [JSVal.obj [("age", JSVal.num 10)], JSVal.obj [("age", JSVal.num 99)]] ∧
      ∃ conds ∈ [[(⟨"age", JSVal.num 10, none, false⟩ : Condition)]],
        ruleGroupAccepts [] (JSVal.obj [("age", JSVal.num 10)]) conds) ∧
    InDBStore.select [] [JSVal.obj [("age", JSVal.num 10)]] [[], []] = some [] := by
  constructor
  · exact (claimC2_select_or_groups.1 []
      [JSVal.obj [("age", JSVal.num 10)], JSVal.obj [("age", JSVal.num 99)]]
      [[⟨"age", JSVal.num 10, none, false⟩]] [JSVal.obj [("age", JSVal.num 10)]]
      (by simp [InDBStore.select, mkGroups, splitConds, condKeyPath, indexesMapping,
        jsTruthy, jsFalsy, selectScan, isOk, determine, andLoop, orLoop, parse, jsToString,
        parseChain, makeKeyChain, splitChars, isSepChar, getProp, lookupField, compareAandB,
        JSVal.beq])
      (JSVal.obj [("age", JSVal.num 10)])).mp (List.mem_singleton_self _)
  · refine claimC2_select_or_groups.2 [] [JSVal.obj [("age", JSVal.num 10)]] [[], []] ?_
    intro conds h
    rcases List.mem_cons.mp h with rfl | h2
    · rfl
    · rcases List.mem_cons.mp h2 with rfl | h3
      · rfl
      · cases h3

/-! ## Claim C10 -/

/-- C10.  A condition whose resolved record value is `undefined` (the field
is missing) evaluates to false for every comparator and every right-hand
value — including `!=` and including an `undefined` right-hand value — so a
`select` with a single required `key != value` condition never returns a
record whose value at the condition's key path is `undefined`. -/
theorem claimC10_missing_field_never_matches :
    (∀ (b : JSVal) (compare : Option String), compareAandB .undef b compare = false) ∧
    (∀ (indexes : List IndexDecl) (store : List JSVal) (key : String) (value : JSVal)
        (res : List JSVal),
      InDBStore.select indexes store [[⟨key, value, some "!=", false⟩]] = some res →
      ∀ r ∈ res, (parse r (condKeyPath indexes key)).getD .undef ≠ .undef) := by
  constructor
  · intro b compare
    rfl
  · intro indexes store key value res h r hr hud
    rw [InDBStore.select] at h
    have hmem := (selectScan_spec _ store res h r).mp hr
    obtain ⟨g, hgm, hacc⟩ := hmem.2
    simp only [mkGroups, List.map_cons, List.map_nil, List.mem_singleton] at hgm
    subst hgm
    rw [splitConds_eq] at hacc
    have hc := hacc.2.1 (condOfRule indexes ⟨key, value, some "!=", false⟩)
      (by simp [condOfRule])
    simp only [condHolds, condOfRule] at hc
    rw [hud] at hc
    simp [compareAandB] at hc

/-- Witness for C10: the theorem applied at a concrete store, key and
value, discharging its hypotheses. -/
theorem claimC10_witness :
    (parse (JSVal.obj [("age", JSVal.num 1)]) (condKeyPath [] "age")).getD .undef ≠ .undef :=
  claimC10_missing_field_never_matches.2 [] [JSVal.obj [("age", JSVal.num 1)]] "age"
    (JSVal.num 5) [JSVal.obj [("age", JSVal.num 1)]]
    (by simp [InDBStore.select, mkGroups, splitConds, condKeyPath, indexesMapping,
      jsTruthy, jsFalsy, selectScan, isOk, determine, andLoop, orLoop, parse, jsToString,
      parseChain, makeKeyChain, splitChars, isSepChar, getProp, lookupField, compareAandB,
      JSVal.beq])
    (JSVal.obj [("age", JSVal.num 1)]) (List.mem_singleton_self _)

/-! ## The object-store engine and the write operations
(`src/test.js` lines 644–734)

Modelled from the spec: the host IndexedDB engine is the spec's external
collaborator (spec §1, §6).  An object store is modelled as its list of
`(primary key, record)` pairs; `put` replaces the record under an existing
key or appends, `add` fails on an existing key with a `ConstraintError`,
`delete` removes by key, `get` looks up by key.  A write with an
`undefined` extracted key fails with a `DataError`.  Key extraction uses
the store's primary key path (spec §4.2); keys are compared by structural
equality.  Key order of iteration, the shared batch transaction's
abort-on-error rollback, and the rejection of non-primitive invalid key
types are not modelled — no claim depends on them. -/

abbrev Records := List (JSVal × JSVal)

/-- The value the engine extracts at the store's primary key path
(`undefined` when the path is missing or unreachable). -/
def engineExtract (kp : String) (o : JSVal) : JSVal :=
  match parse o (.str kp) with
  | some v => v
  | none => .undef

def engineHasKey (records : Records) (k : JSVal) : Bool :=
  records.any (fun r => JSVal.beq r.1 k)

def engineGet (records : Records) (k : JSVal) : JSVal :=
  match records.find? (fun r => JSVal.beq r.1 k) with
  | some r => r.2
  | none => .undef

def enginePut (records : Records) (k v : JSVal) : Records × Option String :=
  match k with
  | .undef => (records, some "DataError")
  | k =>
    if engineHasKey records k then
      (records.map (fun r => if JSVal.beq r.1 k then (r.1, v) else r), none)
    else (records ++ [(k, v)], none)

def engineAdd (records : Records) (k v : JSVal) : Records × Option String :=
  match k with
  | .undef => (records, some "DataError")
  | k =>
    if engineHasKey records k then (records, some "ConstraintError")
    else (records ++ [(k, v)], none)

def engineDelete (records : Records) (k : JSVal) : Records × Option String :=
  match k with
  | .undef => (records, some "DataError")
  | k => (records.filter (fun r => !JSVal.beq r.1 k), none)

/-- One engine request issued by the facade. -/
inductive EngineOp : Type where
  | addOp (k v : JSVal)
  | putOp (k v : JSVal)
  | deleteOp (k : JSVal)
  | getOp (k : JSVal)
deriving Repr

/-- The outcome of one facade write call: the store contents afterwards,
the rejection (if any), and the engine requests that were issued.  An
empty `ops` list means no engine operation was issued. -/
structure OpResult where
  records : Records
  error : Option String
  ops : List EngineOp
deriving Repr

/-- Run a batch of single-record engine requests in order, reporting the
first error. -/
def batchRun (f : Records → JSVal → (Records × Option String) × EngineOp) :
    Records → List JSVal → OpResult
  | records, [] => ⟨records, none, []⟩
  | records, o :: rest =>
    let s := f records o
    let r2 := batchRun f s.1.1 rest
    ⟨r2.records,
      (match s.1.2 with
       | some err => some err
       | none => r2.error),
      s.2 :: r2.ops⟩

/-- `InDBStore.add(obj)`: arrays of fewer than two elements degrade to the
singular path on their first element; other arrays are batched; a falsy
argument resolves with no engine call; otherwise one engine `add`. -/
def InDBStore.add (kp : String) (records : Records) : JSVal → OpResult
  | .arr [] => InDBStore.add kp records .undef
  | .arr [x] => InDBStore.add kp records x
  | .arr objs =>
    batchRun (fun rs obj =>
      (engineAdd rs (engineExtract kp obj) obj, .addOp (engineExtract kp obj) obj))
      records objs
  | obj =>
    if jsFalsy obj then ⟨records, none, []⟩
    else
      ⟨(engineAdd records (engineExtract kp obj) obj).1,
        (engineAdd records (engineExtract kp obj) obj).2,
        [.addOp (engineExtract kp obj) obj]⟩

/-- `InDBStore.put(obj)`: same shape as `add`, upserting. -/
def InDBStore.put (kp : String) (records : Records) : JSVal → OpResult
  | .arr [] => InDBStore.put kp records .undef
  | .arr [x] => InDBStore.put kp records x
  | .arr objs =>
    batchRun (fun rs obj =>
      (enginePut rs (engineExtract kp obj) obj, .putOp (engineExtract kp obj) obj))
      records objs
  | obj =>
    if jsFalsy obj then ⟨records, none, []⟩
    else
      ⟨(enginePut records (engineExtract kp obj) obj).1,
        (enginePut records (engineExtract kp obj) obj).2,
        [.putOp (engineExtract kp obj) obj]⟩

/-- `InDBStore.delete(key)`: an array is a batch of keys (fewer than two
degrade to the singular path); a falsy key resolves with no engine call. -/
def InDBStore.delete (records : Records) : JSVal → OpResult
  | .arr [] => InDBStore.delete records .undef
  | .arr [k] => InDBStore.delete records k
  | .arr keys =>
    batchRun (fun rs key => (engineDelete rs key, .deleteOp key)) records keys
  | key =>
    if jsFalsy key then ⟨records, none, []⟩
    else
      ⟨(engineDelete records key).1, (engineDelete records key).2, [.deleteOp key]⟩

/-- Extract the primary keys of a batch of objects with `parse`; `none`
models the `TypeError` a `null` intermediate would throw while the batch
request functions are being built. -/
def removeKeys (kp : String) : List JSVal → Option (List JSVal)
  | [] => some []
  | o :: rest =>
    match parse o (.str kp) with
    | none => none
    | some k =>
      match removeKeys kp rest with
      | none => none
      | some ks => some (k :: ks)

/-- `InDBStore.remove(obj)`: derive the primary key of each object via
`parse` and delegate to `delete`; falsy objects and falsy derived keys
resolve with no engine call. -/
def InDBStore.remove (kp : String) (records : Records) : JSVal → OpResult
  | .arr [] => InDBStore.remove kp records .undef
  | .arr [x] => InDBStore.remove kp records x
  | .arr objs =>
    (match removeKeys kp objs with
     | Option.none => ⟨records, Option.some "TypeError", []⟩
     | Option.some keys =>
        batchRun (fun rs key => (engineDelete rs key, .deleteOp key)) records keys)
  | obj =>
    if jsFalsy obj then ⟨records, Option.none, []⟩
    else
      match parse obj (.str kp) with
      | Option.none => ⟨records, Option.some "TypeError", []⟩
      | Option.some k =>
        if jsFalsy k then ⟨records, Option.none, []⟩ else InDBStore.delete records k

/-- `InDBStore.get(key)`: a single key is one lookup; an array of keys is a
batch whose reply preserves input order (modelled as an array of the
per-key lookups). -/
def InDBStore.get (records : Records) : JSVal → JSVal × List EngineOp
  | .arr keys => (.arr (keys.map (engineGet records)), keys.map (fun k => .getOp k))
  | key => (engineGet records key, [.getOp key])

theorem JSVal.beq_refl (a : JSVal) : JSVal.beq a a = true := (JSVal.beq_iff a a).mpr rfl

theorem enginePut_ne_undef (records : Records) (k v : JSVal) (hk : k ≠ .undef) :
    enginePut records k v =
      (if engineHasKey records k then
        (records.map (fun r => if JSVal.beq r.1 k then (r.1, v) else r), none)
       else (records ++ [(k, v)], none)) := by
  cases k <;> first | exact absurd rfl hk | rfl

theorem engineAdd_ne_undef (records : Records) (k v : JSVal) (hk : k ≠ .undef) :
    engineAdd records k v =
      (if engineHasKey records k then (records, some "ConstraintError")
       else (records ++ [(k, v)], none)) := by
  cases k <;> first | exact absurd rfl hk | rfl

theorem engineGet_replace (records : Records) (k v : JSVal) :
    engineHasKey records k = true →
    engineGet (records.map (fun r => if JSVal.beq r.1 k then (r.1, v) else r)) k = v := by
  induction records with
  | nil => intro h; simp [engineHasKey] at h
  | cons r rest ih =>
    intro h
    by_cases hb : JSVal.beq r.1 k = true
    · simp only [List.map_cons, hb, if_true]
      simp [engineGet, List.find?_cons_of_pos, hb]
    · simp only [List.map_cons, hb, if_false]
      have h' : engineHasKey rest k = true := by
        simp only [engineHasKey, List.any_cons, Bool.or_eq_true] at h
        rcases h with h | h
        · exact absurd h hb
        · exact h
      have hrec := ih h'
      simp only [engineGet] at hrec ⊢
      rw [List.find?_cons_of_neg]
      · exact hrec
      · simp [hb]

theorem engineGet_append (records : Records) (k v : JSVal) :
    engineHasKey records k = false →
    engineGet (records ++ [(k, v)]) k = v := by
  induction records with
  | nil => intro _; simp [engineGet, List.find?, JSVal.beq_refl]
  | cons r rest ih =>
    intro h
    simp only [engineHasKey, List.any_cons, Bool.or_eq_false_iff] at h
    simp only [List.cons_append, engineGet]
    rw [List.find?_cons_of_neg]
    · have hrec := ih (by simp [engineHasKey, h.2])
      simpa [engineGet] using hrec
    · simp [h.1]

theorem get_of_ne_arr (records : Records) (k : JSVal) (hka : ∀ ks : List JSVal, k ≠ .arr ks) :
    InDBStore.get records k = (engineGet records k, [.getOp k]) := by
  cases k <;> first | exact absurd rfl (hka _) | rfl

theorem put_obj_def (kp : String) (records : Records) (fields : List (String × JSVal)) :
    InDBStore.put kp records (JSVal.obj fields) =
      ⟨(enginePut records (engineExtract kp (JSVal.obj fields)) (JSVal.obj fields)).1,
       (enginePut records (engineExtract kp (JSVal.obj fields)) (JSVal.obj fields)).2,
       [.putOp (engineExtract kp (JSVal.obj fields)) (JSVal.obj fields)]⟩ := by
  rw [InDBStore.put, if_neg (by simp [jsFalsy])]
  all_goals simp

theorem add_obj_def (kp : String) (records : Records) (fields : List (String × JSVal)) :
    InDBStore.add kp records (JSVal.obj fields) =
      ⟨(engineAdd records (engineExtract kp (JSVal.obj fields)) (JSVal.obj fields)).1,
       (engineAdd records (engineExtract kp (JSVal.obj fields)) (JSVal.obj fields)).2,
       [.addOp (engineExtract kp (JSVal.obj fields)) (JSVal.obj fields)]⟩ := by
  rw [InDBStore.add, if_neg (by simp [jsFalsy])]
  all_goals simp

/-! ## Claim C5 -/

/-- C5, counterexample to the claim as stated.  On an object whose primary
key value is itself an array (a valid compound key), `put` succeeds, but
`get` of that key takes the array-of-keys batch branch
(`Array.isArray(key)`) and returns the list of per-element lookups instead
of the stored object: storing `{id: [1]}` and getting key `[1]` yields
`[undefined]`, not the object. -/
theorem claimC5_counterexample :
    (InDBStore.put "id" [] (JSVal.obj [("id", JSVal.arr [JSVal.num 1])])).error = none ∧
    (InDBStore.get (InDBStore.put "id" [] (JSVal.obj [("id", JSVal.arr [JSVal.num 1])])).records
        (engineExtract "id" (JSVal.obj [("id", JSVal.arr [JSVal.num 1])]))).1 =
      JSVal.arr [JSVal.undef] ∧
    JSVal.arr [JSVal.undef] ≠ JSVal.obj [("id", JSVal.arr [JSVal.num 1])] := by
  refine ⟨?_, ?_, by simp⟩ <;>
    simp [InDBStore.put, InDBStore.get, engineExtract, enginePut, engineHasKey, engineGet,
      jsFalsy, parse, jsToString, parseChain, makeKeyChain, splitChars, isSepChar,
      getProp, lookupField, JSVal.beq, JSVal.beqList, List.find?]

/-- C5 (amended).  For every store and every object `x` carrying a defined
and non-array value at the store's primary key path, `put(x)` followed by
`get` of that primary key value resolves to an object deep-equal to `x`
(deep equality is structural equality of the model values). -/
theorem claimC5_put_get_roundtrip :
    ∀ (kp : String) (records : Records) (fields : List (String × JSVal)),
      engineExtract kp (JSVal.obj fields) ≠ .undef →
      (∀ ks : List JSVal, engineExtract kp (JSVal.obj fields) ≠ .arr ks) →
      (InDBStore.put kp records (JSVal.obj fields)).error = none ∧
      (InDBStore.get (InDBStore.put kp records (JSVal.obj fields)).records
          (engineExtract kp (JSVal.obj fields))).1 = JSVal.obj fields := by
  intro kp records fields hku hka
  rw [put_obj_def, enginePut_ne_undef records _ _ hku]
  by_cases hh : engineHasKey records (engineExtract kp (JSVal.obj fields)) = true
  · rw [if_pos hh]
    refine ⟨rfl, ?_⟩
    rw [get_of_ne_arr _ _ hka]
    exact engineGet_replace records _ _ hh
  · rw [if_neg hh]
    refine ⟨rfl, ?_⟩
    rw [get_of_ne_arr _ _ hka]
    exact engineGet_append records _ _ (Bool.eq_false_iff.mpr hh)

/-- Witness for C5: the amended roundtrip applied at a concrete store and
object, discharging its hypotheses. -/
theorem claimC5_witness :
    (InDBStore.put "id" [] (JSVal.obj [("id", JSVal.num 7)])).error = none ∧
    (InDBStore.get (InDBStore.put "id" [] (JSVal.obj [("id", JSVal.num 7)])).records
        (engineExtract "id" (JSVal.obj [("id", JSVal.num 7)]))).1 =
      JSVal.obj [("id", JSVal.num 7)] :=
  claimC5_put_get_roundtrip "id" [] [("id", JSVal.num 7)]
    (by simp [engineExtract, parse, jsToString, parseChain, makeKeyChain, splitChars,
      isSepChar, getProp, lookupField])
    (by intro ks
        simp [engineExtract, parse, jsToString, parseChain, makeKeyChain, splitChars,
          isSepChar, getProp, lookupField])

/-! ## Claim C6 -/

/-- C6.  When a record with primary key `k` already exists, `add` of an
object with key `k` rejects (`ConstraintError`) and leaves the store
unchanged, while `put` of the same object resolves and replaces the record
stored under `k` with the new object. -/
theorem claimC6_add_rejects_put_overwrites :
    ∀ (kp : String) (records : Records) (fields : List (String × JSVal)) (k : JSVal),
      k = engineExtract kp (JSVal.obj fields) →
      k ≠ .undef →
      engineHasKey records k = true →
      (InDBStore.add kp records (JSVal.obj fields)).error = some "ConstraintError" ∧
      (InDBStore.add kp records (JSVal.obj fields)).records = records ∧
      (InDBStore.put kp records (JSVal.obj fields)).error = none ∧
      (InDBStore.put kp records (JSVal.obj fields)).records =
        records.map (fun r => if JSVal.beq r.1 k then (r.1, JSVal.obj fields) else r) ∧
      engineGet (InDBStore.put kp records (JSVal.obj fields)).records k =
        JSVal.obj fields := by
  intro kp records fields k hk hku hh
  subst hk
  rw [put_obj_def, add_obj_def, engineAdd_ne_undef records _ _ hku,
    enginePut_ne_undef records _ _ hku]
  simp only [hh, if_true]
  exact ⟨trivial, trivial, trivial, trivial, engineGet_replace records _ _ hh⟩

/-- Witness for C6: the theorem applied at a concrete store and object,
discharging its hypotheses. -/
theorem claimC6_witness :
    (InDBStore.add "id" [(JSVal.num 1, JSVal.obj [("id", JSVal.num 1)])]
        (JSVal.obj [("id", JSVal.num 1), ("x", JSVal.num 2)])).error =
      some "ConstraintError" ∧
    (InDBStore.add "id" [(JSVal.num 1, JSVal.obj [("id", JSVal.num 1)])]
        (JSVal.obj [("id", JSVal.num 1), ("x", JSVal.num 2)])).records =
      [(JSVal.num 1, JSVal.obj [("id", JSVal.num 1)])] ∧
    (InDBStore.put "id" [(JSVal.num 1, JSVal.obj [("id", JSVal.num 1)])]
        (JSVal.obj [("id", JSVal.num 1), ("x", JSVal.num 2)])).error = none ∧
    (InDBStore.put "id" [(JSVal.num 1, JSVal.obj [("id", JSVal.num 1)])]
        (JSVal.obj [("id", JSVal.num 1), ("x", JSVal.num 2)])).records =
      [(JSVal.num 1, JSVal.obj [("id", JSVal.num 1)])].map
        (fun r => if JSVal.beq r.1 (JSVal.num 1) then
          (r.1, JSVal.obj [("id", JSVal.num 1), ("x", JSVal.num 2)]) else r) ∧
    engineGet (InDBStore.put "id" [(JSVal.num 1, JSVal.obj [("id", JSVal.num 1)])]
        (JSVal.obj [("id", JSVal.num 1), ("x", JSVal.num 2)])).records (JSVal.num 1) =
      JSVal.obj [("id", JSVal.num 1), ("x", JSVal.num 2)] :=
  claimC6_add_rejects_put_overwrites "id" [(JSVal.num 1, JSVal.obj [("id", JSVal.num 1)])]
    [("id", JSVal.num 1), ("x", JSVal.num 2)] (JSVal.num 1)
    (by simp [engineExtract, parse, jsToString, parseChain, makeKeyChain, splitChars,
      isSepChar, getProp, lookupField])
    (by simp)
    (by simp [engineHasKey, JSVal.beq])

/-! ## Claim C7 -/

/-- C7.  `add`, `put`, `delete` and `remove` called with a falsy argument
(`undefined`, `null`, `0`, `''`, `false`) resolve successfully, issue no
engine operation, and leave the store contents unchanged. -/
theorem claimC7_falsy_noop :
    ∀ (kp : String) (records : Records) (v : JSVal), jsFalsy v = true →
      InDBStore.add kp records v = ⟨records, none, []⟩ ∧
      InDBStore.put kp records v = ⟨records, none, []⟩ ∧
      InDBStore.delete records v = ⟨records, none, []⟩ ∧
      InDBStore.remove kp records v = ⟨records, none, []⟩ := by
  intro kp records v hv
  cases v <;>
    simp_all [InDBStore.add, InDBStore.put, InDBStore.delete, InDBStore.remove, jsFalsy]

/-- Witness for C7: the theorem applied at each concrete falsy value,
discharging its hypothesis. -/
theorem claimC7_witness :
    InDBStore.add "id" [(JSVal.num 1, JSVal.obj [("id", JSVal.num 1)])] (JSVal.num 0) =
      ⟨[(JSVal.num 1, JSVal.obj [("id", JSVal.num 1)])], none, []⟩ ∧
    InDBStore.put "id" [] JSVal.undef = ⟨[], none, []⟩ ∧
    InDBStore.delete [] (JSVal.str "") = ⟨[], none, []⟩ ∧
    InDBStore.remove "id" [] JSVal.null = ⟨[], none, []⟩ :=
  ⟨(claimC7_falsy_noop "id" [(JSVal.num 1, JSVal.obj [("id", JSVal.num 1)])] (JSVal.num 0)
      (by rfl)).1,
   (claimC7_falsy_noop "id" [] JSVal.undef (by rfl)).2.1,
   (claimC7_falsy_noop "x" [] (JSVal.str "") (by rfl)).2.2.1,
   (claimC7_falsy_noop "id" [] JSVal.null (by rfl)).2.2.2⟩

/-! ## `query` (`src/test.js` lines 466–525)

The range construction and the in-memory comparator tests are translated
from the source.  The index scan itself is the engine's: modelled from the
spec (glossary "Key range", §6 collaborator contract).  An index contains
exactly the records whose extracted index value is a valid key (numbers,
strings, or arrays of valid keys — dates and binary are not modelled), the
scan visits them in index order (taken as the given input order), and a
key range pre-filters by the engine's key ordering: numbers order by value
and precede strings, strings order lexicographically and precede arrays,
arrays order lexicographically by element.  `multiEntry` indexes are not
modelled (no claim exercises them). -/

/-- An `IDBKeyRange`. -/
inductive KeyRange : Type where
  | lower (v : JSVal) (exclusive : Bool)
  | upper (v : JSVal) (exclusive : Bool)
  | only (v : JSVal)
deriving Repr

/-- The `switch` that builds `query`'s native range: exclusive lower bound
for `>`, inclusive for `>=`, exclusive upper bound for `<`, inclusive for
`<=`, no range for `%`, `!=` and `in`, and an exact-value range for the
default (`=`). -/
def rangeFor (compare : Option String) (value : JSVal) : Option KeyRange :=
  match compare with
  | some ">" => some (.lower value true)
  | some ">=" => some (.lower value false)
  | some "<" => some (.upper value true)
  | some "<=" => some (.upper value false)
  | some "%" => none
  | some "!=" => none
  | some "in" => none
  | _ => some (.only value)

def ordCompareVia {α : Type} [LinearOrder α] (a b : α) : Ordering :=
  if a < b then .lt else if a = b then .eq else .gt

/-- The rank of a value's type in the engine's key ordering (only the
ranks of the valid key types — numbers, strings, arrays — are
meaningful). -/
def idbTypeRank : JSVal → Nat
  | .undef => 0
  | .null => 1
  | .bool _ => 2
  | .obj _ => 3
  | .num _ => 4
  | .str _ => 5
  | .arr _ => 6

mutual

/-- The engine's total order on keys. -/
def idbCompare : JSVal → JSVal → Ordering
  | .num a, .num b => ordCompareVia a b
  | .str a, .str b => ordCompareVia a b
  | .arr a, .arr b => idbCompareList a b
  | a, b => ordCompareVia (idbTypeRank a) (idbTypeRank b)

def idbCompareList : List JSVal → List JSVal → Ordering
  | [], [] => .eq
  | [], _ :: _ => .lt
  | _ :: _, [] => .gt
  | x :: xs, y :: ys =>
    match idbCompare x y with
    | .eq => idbCompareList xs ys
    | o => o

end

mutual

/-- Valid engine keys: numbers, strings, and arrays of valid keys. -/
def validKey : JSVal → Bool
  | .num _ => true
  | .str _ => true
  | .arr xs => validKeyList xs
  | _ => false

def validKeyList : List JSVal → Bool
  | [] => true
  | x :: xs => validKey x && validKeyList xs

end

/-- Whether a key falls inside a (possibly absent) key range. -/
def inRange (range : Option KeyRange) (k : JSVal) : Bool :=
  match range with
  | none => true
  | some (.lower v true) => idbCompare k v == .gt
  | some (.lower v false) => idbCompare k v == .gt || idbCompare k v == .eq
  | some (.upper v true) => idbCompare k v == .lt
  | some (.upper v false) => idbCompare k v == .lt || idbCompare k v == .eq
  | some (.only v) => idbCompare k v == .eq

/-- The resolved index value of a record (`parse(targetObj, owner.keyPath)`
in the cursor callback; a record in the index always resolves). -/
def idxVal (kp : JSVal) (r : JSVal) : JSVal :=
  match parse r kp with
  | none => JSVal.undef
  | some v => v

/-- The records present in the index over `kp`, in index iteration order:
those whose resolved value is a valid key. -/
def indexRecords (kp : JSVal) (records : List JSVal) : List JSVal :=
  records.filter (fun r =>
    match parse r kp with
    | some v => validKey v
    | none => false)

/-- An index cursor scan restricted by a key range. -/
def indexScan (kp : JSVal) (range : Option KeyRange) (records : List JSVal) : List JSVal :=
  (indexRecords kp records).filter (fun r => inRange range (idxVal kp r))

/-- The in-memory test applied to each visited record in `query`'s cursor
callback: `!=` keeps strict inequality, `%` keeps string values containing
the (stringified) value, `in` keeps values contained in a supplied array,
and every other comparator keeps everything (the range already filtered). -/
def queryFilter (kp : JSVal) (value : JSVal) (compare : Option String) (r : JSVal) : Bool :=
  match compare with
  | some "!=" => !JSVal.beq (idxVal kp r) value
  | some "%" =>
    (match idxVal kp r with
     | .str s => strContains s (jsToString value)
     | _ => false)
  | some "in" =>
    (match value with
     | .arr xs => jsArrayHas xs (idxVal kp r)
     | _ => false)
  | _ => true

/-- `InDBStore.query(key, value, compare)` over the index on `kp` whose
records, in index order, are `records`. -/
def InDBStore.query (kp : JSVal) (records : List JSVal) (value : JSVal)
    (compare : Option String) : List JSVal :=
  (indexScan kp (rangeFor compare value) records).filter (queryFilter kp value compare)

theorem ordBeq_iff (a b : Ordering) : (a == b) = true ↔ a = b := by
  cases a <;> cases b <;> simp <;> rfl

theorem ordCompareVia_eq_iff {α : Type} [LinearOrder α] (a b : α) :
    ordCompareVia a b = .eq ↔ a = b := by
  rw [ordCompareVia]
  split
  · rename_i h
    constructor
    · intro hc; exact absurd hc (by simp)
    · intro he; subst he; exact absurd h (lt_irrefl a)
  · split
    · rename_i he; simp [he]
    · rename_i h1 h2
      constructor
      · intro hc; exact absurd hc (by simp)
      · intro he; exact absurd he h2

theorem jsArrayHas_iff (xs : List JSVal) (a : JSVal) : jsArrayHas xs a = true ↔ a ∈ xs := by
  induction xs with
  | nil => simp [jsArrayHas]
  | cons x rest ih =>
    rw [jsArrayHas, Bool.or_eq_true, ih]
    constructor
    · rintro (hb | hm)
      · rw [(JSVal.beq_iff x a).mp hb]; exact List.mem_cons_self _ _
      · exact List.mem_cons_of_mem _ hm
    · intro hm
      rcases List.mem_cons.mp hm with he | hm'
      · exact Or.inl ((JSVal.beq_iff x a).mpr he.symm)
      · exact Or.inr hm'

mutual

theorem idbCompare_eq_iff : ∀ (a b : JSVal), validKey a = true → (idbCompare a b = .eq ↔ a = b)
  | .undef, _, hv => by simp [validKey] at hv
  | .null, _, hv => by simp [validKey] at hv
  | .bool _, _, hv => by simp [validKey] at hv
  | .obj _, _, hv => by simp [validKey] at hv
  | .num a, b, _ => by
    cases b <;> simp [idbCompare, ordCompareVia_eq_iff, idbTypeRank]
  | .str s, b, _ => by
    cases b <;> simp [idbCompare, ordCompareVia_eq_iff, idbTypeRank]
  | .arr as, b, hv => by
    cases b with
    | arr bs =>
      have h := idbCompareList_eq_iff as bs (by simpa [validKey] using hv)
      simp only [idbCompare, JSVal.arr.injEq]
      exact h
    | undef => simp [idbCompare, idbTypeRank, ordCompareVia]
    | null => simp [idbCompare, idbTypeRank, ordCompareVia]
    | bool b => simp [idbCompare, idbTypeRank, ordCompareVia]
    | num n => simp [idbCompare, idbTypeRank, ordCompareVia]
    | str s => simp [idbCompare, idbTypeRank, ordCompareVia]
    | obj fs => simp [idbCompare, idbTypeRank, ordCompareVia]

theorem idbCompareList_eq_iff :
    ∀ (as bs : List JSVal), validKeyList as = true → (idbCompareList as bs = .eq ↔ as = bs)
  | [], [], _ => by simp [idbCompareList]
  | [], _ :: _, _ => by simp [idbCompareList]
  | _ :: _, [], _ => by simp [idbCompareList]
  | x :: xs, y :: ys, hv => by
    rw [validKeyList, Bool.and_eq_true] at hv
    have hx := idbCompare_eq_iff x y hv.1
    have hxs := idbCompareList_eq_iff xs ys hv.2
    rw [idbCompareList]
    cases hcomp : idbCompare x y with
    | lt =>
      simp only [hcomp]
      constructor
      · intro hc; exact absurd hc (by simp)
      · intro he
        injection he with h1 h2
        have heq : idbCompare x y = .eq := hx.mpr h1
        rw [hcomp] at heq
        cases heq
    | eq =>
      simp only [hcomp]
      rw [hxs]
      simp [hx.mp hcomp]
    | gt =>
      simp only [hcomp]
      constructor
      · intro hc; exact absurd hc (by simp)
      · intro he
        injection he with h1 h2
        have heq : idbCompare x y = .eq := hx.mpr h1
        rw [hcomp] at heq
        cases heq

end

theorem validKey_of_mem_indexRecords (kp : JSVal) (records : List JSVal) (r : JSVal)
    (h : r ∈ indexRecords kp records) : validKey (idxVal kp r) = true := by
  have hp := (List.mem_filter.mp h).2
  rw [idxVal]
  split at hp
  · rename_i v heq
    rw [heq]
    exact hp
  · cases hp

theorem mem_query (kp : JSVal) (records : List JSVal) (value : JSVal)
    (compare : Option String) (r : JSVal) :
    r ∈ InDBStore.query kp records value compare ↔
      r ∈ indexRecords kp records ∧
        inRange (rangeFor compare value) (idxVal kp r) = true ∧
        queryFilter kp value compare r = true := by
  rw [InDBStore.query, indexScan]
  simp only [List.mem_filter, and_assoc]

theorem jsBeq_eq_false_iff (a b : JSVal) : JSVal.beq a b = false ↔ a ≠ b := by
  constructor
  · intro h he
    subst he
    rw [JSVal.beq_refl a] at h
    cases h
  · intro hne
    cases hb : JSVal.beq a b
    · rfl
    · exact absurd ((JSVal.beq_iff a b).mp hb) hne

/-! ## Claim C3 -/

/-- C3.  `query(indexName, value, compare)`: the ordering comparators and
the default `=` restrict the scan with a native key range (exclusive lower
bound for `>`, inclusive for `>=`, exclusive upper bound for `<`, inclusive
for `<=`, exact-value range for `=`); for `!=`, `%` and `in` no range is
built and every index record is tested in memory — `!=` keeps records whose
index value is strictly unequal to `value`, `%` keeps records whose index
value is a string containing the stringified `value` as a substring, `in`
keeps records whose index value is an element of the supplied array
`value`; `=` matches exactly the records whose index value equals `value`,
so a value of a different type than the stored index value never matches
`=` and, for index records, always matches `!=`. -/
theorem claimC3_query_comparators :
    (∀ (compare : Option String) (value : JSVal),
      rangeFor (some ">") value = some (.lower value true) ∧
      rangeFor (some ">=") value = some (.lower value false) ∧
      rangeFor (some "<") value = some (.upper value true) ∧
      rangeFor (some "<=") value = some (.upper value false) ∧
      rangeFor (some "=") value = some (.only value) ∧
      rangeFor none value = some (.only value) ∧
      (compare = some "!=" ∨ compare = some "%" ∨ compare = some "in" →
        rangeFor compare value = none)) ∧
    (∀ (kp : JSVal) (records : List JSVal) (value r : JSVal),
      (r ∈ InDBStore.query kp records value (some ">") ↔
        r ∈ indexRecords kp records ∧ idbCompare (idxVal kp r) value = .gt) ∧
      (r ∈ InDBStore.query kp records value (some ">=") ↔
        r ∈ indexRecords kp records ∧
          (idbCompare (idxVal kp r) value = .gt ∨ idbCompare (idxVal kp r) value = .eq)) ∧
      (r ∈ InDBStore.query kp records value (some "<") ↔
        r ∈ indexRecords kp records ∧ idbCompare (idxVal kp r) value = .lt) ∧
      (r ∈ InDBStore.query kp records value (some "<=") ↔
        r ∈ indexRecords kp records ∧
          (idbCompare (idxVal kp r) value = .lt ∨ idbCompare (idxVal kp r) value = .eq)) ∧
      (r ∈ InDBStore.query kp records value (some "=") ↔
        r ∈ indexRecords kp records ∧ idxVal kp r = value) ∧
      (r ∈ InDBStore.query kp records value (some "!=") ↔
        r ∈ indexRecords kp records ∧ idxVal kp r ≠ value) ∧
      (r ∈ InDBStore.query kp records value (some "%") ↔
        r ∈ indexRecords kp records ∧
          ∃ s, idxVal kp r = .str s ∧ strContains s (jsToString value) = true) ∧
      (r ∈ InDBStore.query kp records value (some "in") ↔
        r ∈ indexRecords kp records ∧
          ∃ xs, value = .arr xs ∧ idxVal kp r ∈ xs)) ∧
    (∀ (kp : JSVal) (records : List JSVal) (value r : JSVal),
      idbTypeRank (idxVal kp r) ≠ idbTypeRank value →
      r ∉ InDBStore.query kp records value (some "=") ∧
      (r ∈ indexRecords kp records →
        r ∈ InDBStore.query kp records value (some "!="))) := by
  refine ⟨?_, ?_, ?_⟩
  · intro compare value
    refine ⟨by simp [rangeFor], by simp [rangeFor], by simp [rangeFor], by simp [rangeFor],
      by simp [rangeFor], by simp [rangeFor], ?_⟩
    rintro (rfl | rfl | rfl) <;> simp [rangeFor]
  · intro kp records value r
    refine ⟨?_, ?_, ?_, ?_, ?_, ?_, ?_, ?_⟩
    · rw [mem_query]
      simp [rangeFor, inRange, queryFilter, ordBeq_iff]
    · rw [mem_query]
      simp [rangeFor, inRange, queryFilter, ordBeq_iff]
    · rw [mem_query]
      simp [rangeFor, inRange, queryFilter, ordBeq_iff]
    · rw [mem_query]
      simp [rangeFor, inRange, queryFilter, ordBeq_iff]
    · rw [mem_query]
      constructor
      · rintro ⟨hm, hr, -⟩
        have hv := validKey_of_mem_indexRecords kp records r hm
        refine ⟨hm, (idbCompare_eq_iff _ _ hv).mp ?_⟩
        simpa [rangeFor, inRange, ordBeq_iff] using hr
      · rintro ⟨hm, he⟩
        have hv := validKey_of_mem_indexRecords kp records r hm
        refine ⟨hm, ?_, by simp [queryFilter]⟩
        simpa [rangeFor, inRange, ordBeq_iff] using (idbCompare_eq_iff _ _ hv).mpr he
    · rw [mem_query]
      simp [rangeFor, inRange, queryFilter, jsBeq_eq_false_iff]
    · rw [mem_query]
      cases hidx : idxVal kp r <;>
        simp [rangeFor, inRange, queryFilter, hidx]
    · rw [mem_query]
      cases value <;>
        simp [rangeFor, inRange, queryFilter, jsArrayHas_iff]
  · intro kp records value r hrank
    have hne : idxVal kp r ≠ value := fun he => hrank (by rw [he])
    constructor
    · intro hmem
      obtain ⟨hm, hr, -⟩ := (mem_query kp records value (some "=") r).mp hmem
      have hv := validKey_of_mem_indexRecords kp records r hm
      have he := (idbCompare_eq_iff _ _ hv).mp
        (by simpa [rangeFor, inRange, ordBeq_iff] using hr)
      exact hne he
    · intro hm
      rw [mem_query]
      refine ⟨hm, by simp [rangeFor, inRange], ?_⟩
      simpa [queryFilter, jsBeq_eq_false_iff] using hne

/-- Witness for C3: the theorem applied at a concrete index, record and
value, discharging its hypotheses. -/
theorem claimC3_witness :
    rangeFor (some "%") (JSVal.num 5) = none ∧
    JSVal.obj [("age", JSVal.str "x")] ∉
      InDBStore.query (.str "age") [JSVal.obj [("age", JSVal.str "x")]] (JSVal.num 5)
        (some "=") ∧
    JSVal.obj [("age", JSVal.str "x")] ∈
      InDBStore.query (.str "age") [JSVal.obj [("age", JSVal.str "x")]] (JSVal.num 5)
        (some "!=") :=
  ⟨(claimC3_query_comparators.1 (some "%") (JSVal.num 5)).2.2.2.2.2.2 (Or.inr (Or.inl rfl)),
   (claimC3_query_comparators.2.2 (.str "age") [JSVal.obj [("age", JSVal.str "x")]]
      (JSVal.num 5) (JSVal.obj [("age", JSVal.str "x")])
      (by simp [idxVal, parse, jsToString, parseChain, makeKeyChain, splitChars, isSepChar,
        getProp, lookupField, idbTypeRank])).1,
   (claimC3_query_comparators.2.2 (.str "age") [JSVal.obj [("age", JSVal.str "x")]]
      (JSVal.num 5) (JSVal.obj [("age", JSVal.str "x")])
      (by simp [idxVal, parse, jsToString, parseChain, makeKeyChain, splitChars, isSepChar,
        getProp, lookupField, idbTypeRank])).2
     (by simp [indexRecords, parse, jsToString, parseChain, makeKeyChain, splitChars,
       isSepChar, getProp, lookupField, validKey])⟩

/-! ## The upgrade routine (`src/test.js` lines 56–100)

`onupgradeneeded` walks the declared stores in order: a store that already
exists is reused, otherwise it is created with its key path and
auto-increment setting (`'key'` and no auto-increment for key-value
stores); in either case all existing indexes are deleted and the declared
ones recreated; finally every existing store whose name is not among the
declared names is deleted.  The schema is modelled as the database's list
of stores; `existStoreNames` is snapshotted before the loop, exactly as in
the source.  (The source deletes only names from that snapshot; since
every store created by the loop carries a declared name, filtering the
final list to declared names is the same operation.) -/

/-- An index as it exists in the database schema (the arguments of
`createIndex`). -/
structure IndexSchema where
  name : String
  keyPath : JSVal
  unique : Bool
  multiEntry : Bool
deriving Repr, DecidableEq

/-- A store as it exists in the database schema. -/
structure StoreSchema where
  name : String
  keyPath : JSVal
  autoIncrement : Bool
  indexes : List IndexSchema
deriving Repr, DecidableEq

/-- A declared store descriptor. -/
structure StoreDecl where
  name : String
  isKv : Bool
  primaryKeyPath : JSVal
  autoIncrement : Bool
  indexes : List IndexDecl
deriving Repr

/-- `createIndex(item.name, item.keyPath || item.name, { unique,
multiEntry: Array.isArray(item.keyPath) })`. -/
def mkIndex (ix : IndexDecl) : IndexSchema :=
  { name := ix.name,
    keyPath := if jsTruthy ix.keyPath then ix.keyPath else .str ix.name,
    unique := ix.unique,
    multiEntry :=
      (match ix.keyPath with
       | .arr _ => true
       | _ => false) }

/-- The index list a declared store ends up with after the upgrade dropped
all old indexes and recreated the declared ones. -/
def newIndexes (item : StoreDecl) : List IndexSchema := item.indexes.map mkIndex

/-- `createObjectStore` for a declared store that does not exist yet. -/
def mkNewStore (item : StoreDecl) : StoreSchema :=
  { name := item.name,
    keyPath := if item.isKv then .str "key" else item.primaryKeyPath,
    autoIncrement := if item.isKv then false else item.autoIncrement,
    indexes := newIndexes item }

/-- One iteration of the `stores.forEach` loop: reuse (replacing the index
list) when the name is in the snapshot of existing names, else create. -/
def upgradeStep (existNames : List String) (db : List StoreSchema) (item : StoreDecl) :
    List StoreSchema :=
  if item.name ∈ existNames then
    db.map (fun s => if s.name = item.name then { s with indexes := newIndexes item } else s)
  else
    db ++ [mkNewStore item]

/-- The whole `onupgradeneeded` handler as a schema transformer
(`existStoreNames` is `db.map name`, snapshotted before the loop;
`passStoreNames` ends up as the declared names). -/
def onupgradeneeded (stores : List StoreDecl) (db : List StoreSchema) : List StoreSchema :=
  (stores.foldl (upgradeStep (db.map (fun s => s.name))) db).filter
    (fun s => decide (s.name ∈ stores.map (fun item => item.name)))

/-- The first declared store with a given name. -/
def findDecl : List StoreDecl → String → Option StoreDecl
  | [], _ => none
  | it :: rest, n => if it.name = n then some it else findDecl rest n

/-- What the `forEach` loop does to one pre-existing store: replace its
index list when a declared store with its name exists in the snapshot. -/
def upgradeReplace (stores : List StoreDecl) (existNames : List String) (s : StoreSchema) :
    StoreSchema :=
  match findDecl stores s.name with
  | some it => if it.name ∈ existNames then { s with indexes := newIndexes it } else s
  | none => s

theorem upgradeReplace_name (stores : List StoreDecl) (existNames : List String)
    (s : StoreSchema) : (upgradeReplace stores existNames s).name = s.name := by
  rw [upgradeReplace]
  split
  · split <;> rfl
  · rfl

theorem findDecl_eq_some (n : String) :
    ∀ (stores : List StoreDecl) (item : StoreDecl),
      (stores.map (fun it => it.name)).Nodup → item ∈ stores → item.name = n →
      findDecl stores n = some item := by
  intro stores
  induction stores with
  | nil => intro item _ hm _; cases hm
  | cons hd rest ih =>
    intro item hnd hm hn
    rw [List.map_cons, List.nodup_cons] at hnd
    rcases List.mem_cons.mp hm with rfl | hm'
    · rw [findDecl, if_pos hn]
    · by_cases hh : hd.name = n
      · exfalso
        apply hnd.1
        rw [hh, ← hn]
        exact List.mem_map_of_mem _ hm'
      · rw [findDecl, if_neg hh]
        exact ih item hnd.2 hm' hn

theorem findDecl_eq_none (n : String) :
    ∀ (stores : List StoreDecl), (∀ it ∈ stores, it.name ≠ n) → findDecl stores n = none := by
  intro stores
  induction stores with
  | nil => intro _; rfl
  | cons hd rest ih =>
    intro h
    rw [findDecl, if_neg (h hd (List.mem_cons_self _ _))]
    exact ih (fun it hm => h it (List.mem_cons_of_mem _ hm))

theorem foldl_upgradeStep (existNames : List String) :
    ∀ (stores : List StoreDecl), (stores.map (fun it => it.name)).Nodup →
      ∀ (acc : List StoreSchema),
        stores.foldl (upgradeStep existNames) acc =
          acc.map (upgradeReplace stores existNames) ++
            (stores.filter (fun it => decide (it.name ∉ existNames))).map mkNewStore := by
  intro stores
  induction stores with
  | nil =>
    intro _ acc
    have h1 : List.map (upgradeReplace [] existNames) acc = List.map id acc :=
      List.map_congr_left (fun s _ => by rw [upgradeReplace, findDecl]; rfl)
    rw [List.foldl_nil, List.filter_nil, List.map_nil, List.append_nil, h1, List.map_id]
  | cons item rest ih =>
    intro hnd acc
    rw [List.map_cons, List.nodup_cons] at hnd
    rw [List.foldl_cons, ih hnd.2 (upgradeStep existNames acc item)]
    by_cases hex : item.name ∈ existNames
    · rw [upgradeStep, if_pos hex, List.map_map]
      congr 1
      · refine List.map_congr_left (fun s _ => ?_)
        simp only [Function.comp_apply]
        by_cases hs : s.name = item.name
        · rw [if_pos hs]
          have hfr : findDecl rest
              ({ s with indexes := newIndexes item } : StoreSchema).name = none := by
            refine findDecl_eq_none _ rest (fun it hm he => ?_)
            apply hnd.1
            rw [← hs, ← he]
            exact List.mem_map_of_mem _ hm
          have hfc : findDecl (item :: rest) s.name = some item := by
            rw [findDecl, if_pos hs.symm]
          simp only [upgradeReplace, hfr, hfc, hex, if_true]
        · rw [if_neg hs]
          have hfc : findDecl (item :: rest) s.name = findDecl rest s.name := by
            rw [findDecl, if_neg (fun he => hs he.symm)]
          simp only [upgradeReplace, hfc]
      · rw [List.filter_cons, if_neg (by simp [hex])]
    · rw [upgradeStep, if_neg hex, List.map_append, List.filter_cons,
        if_pos (by simp [hex]), List.map_cons]
      have hb : upgradeReplace rest existNames (mkNewStore item) = mkNewStore item := by
        rw [upgradeReplace]
        have hfn : findDecl rest (mkNewStore item).name = none := by
          refine findDecl_eq_none _ rest (fun it hm he => ?_)
          apply hnd.1
          have he' : it.name = item.name := he
          rw [← he']
          exact List.mem_map_of_mem _ hm
        rw [hfn]
      have ha : acc.map (upgradeReplace rest existNames) =
          acc.map (upgradeReplace (item :: rest) existNames) := by
        refine List.map_congr_left (fun s _ => ?_)
        by_cases hs : item.name = s.name
        · have hfc : findDecl (item :: rest) s.name = some item := by
            rw [findDecl, if_pos hs]
          have hfn : findDecl rest s.name = none := by
            refine findDecl_eq_none _ rest (fun it hm he => ?_)
            apply hnd.1
            rw [← hs] at he
            rw [← he]
            exact List.mem_map_of_mem _ hm
          simp only [upgradeReplace, hfc, hfn]
          rw [if_neg hex]
        · have hfc : findDecl (item :: rest) s.name = findDecl rest s.name := by
            rw [findDecl, if_neg hs]
          simp only [upgradeReplace, hfc]
      rw [hb, ha]
      simp

theorem mem_onupgradeneeded (stores : List StoreDecl) (db : List StoreSchema)
    (hnds : (stores.map (fun it => it.name)).Nodup) (s : StoreSchema) :
    s ∈ onupgradeneeded stores db ↔
      (s ∈ db.map (upgradeReplace stores (db.map (fun s => s.name))) ∨
        s ∈ (stores.filter
          (fun it => decide (it.name ∉ db.map (fun s => s.name)))).map mkNewStore) ∧
      s.name ∈ stores.map (fun it => it.name) := by
  rw [onupgradeneeded, foldl_upgradeStep (db.map (fun s => s.name)) stores hnds db]
  simp only [List.mem_filter, List.mem_append, decide_eq_true_eq]

/-! ## Claim C9 -/

/-- C9.  After the upgrade routine runs (for a declaration with unique
store names against a schema with unique store names): every surviving
store carries a declared name (pre-existing stores not in the declaration
are deleted); every declared store is present; every store carrying a
declared name has exactly that declaration's index list (all pre-existing
indexes dropped, the declared ones recreated, with the index key path
defaulting to the index name); a declared store that was absent is created
with its declared key path and auto-increment setting (`'key'` and no
auto-increment in key-value mode); and a declared store that was present
is reused, keeping its existing key path and auto-increment setting. -/
theorem claimC9_upgrade_authoritative :
    ∀ (stores : List StoreDecl) (db : List StoreSchema),
      (stores.map (fun it => it.name)).Nodup →
      (db.map (fun s => s.name)).Nodup →
      (∀ s ∈ onupgradeneeded stores db, ∃ item ∈ stores, s.name = item.name) ∧
      (∀ item ∈ stores,
        (∃ s ∈ onupgradeneeded stores db, s.name = item.name) ∧
        (∀ s ∈ onupgradeneeded stores db, s.name = item.name →
          s.indexes = newIndexes item ∧
          (item.name ∉ db.map (fun s => s.name) → s = mkNewStore item) ∧
          (∀ old ∈ db, old.name = item.name →
            s.keyPath = old.keyPath ∧ s.autoIncrement = old.autoIncrement))) := by
  intro stores db hnds hndd
  constructor
  · intro s hs
    have hname := ((mem_onupgradeneeded stores db hnds s).mp hs).2
    obtain ⟨item, hitem, hn⟩ := List.mem_map.mp hname
    exact ⟨item, hitem, hn.symm⟩
  · intro item hitem
    by_cases hdb : item.name ∈ db.map (fun s => s.name)
    · -- the declared store already exists: it is reused
      obtain ⟨old, hold, holdn⟩ := List.mem_map.mp hdb
      have hfd : findDecl stores old.name = some item :=
        findDecl_eq_some old.name stores item hnds hitem holdn.symm
      have hrepl : upgradeReplace stores (db.map (fun s => s.name)) old =
          { old with indexes := newIndexes item } := by
        simp only [upgradeReplace, hfd, hdb, if_true]
      constructor
      · refine ⟨{ old with indexes := newIndexes item }, ?_, holdn⟩
        rw [mem_onupgradeneeded stores db hnds]
        refine ⟨Or.inl ?_, by rw [show ({ old with indexes := newIndexes item } :
          StoreSchema).name = item.name from holdn]; exact List.mem_map_of_mem _ hitem⟩
        rw [← hrepl]
        exact List.mem_map_of_mem _ hold
      · intro s hs hsn
        rcases ((mem_onupgradeneeded stores db hnds s).mp hs).1 with hs1 | hs2
        · obtain ⟨old2, hold2, hold2e⟩ := List.mem_map.mp hs1
          have hold2n : old2.name = item.name := by
            rw [← hsn, ← hold2e, upgradeReplace_name]
          have hfd2 : findDecl stores old2.name = some item :=
            findDecl_eq_some old2.name stores item hnds hitem hold2n.symm
          have hs2e : s = { old2 with indexes := newIndexes item } := by
            rw [← hold2e]
            simp only [upgradeReplace, hfd2, hdb, if_true]
          subst hs2e
          refine ⟨rfl, fun hc => absurd hdb hc, ?_⟩
          intro old3 hold3 hold3n
          have : old3 = old2 :=
            List.inj_on_of_nodup_map hndd hold3 hold2 (by rw [hold3n, hold2n])
          subst this
          exact ⟨rfl, rfl⟩
        · obtain ⟨item2, hitem2, hitem2e⟩ := List.mem_map.mp hs2
          have hitem2m := List.mem_filter.mp hitem2
          have hitem2n : item2.name = item.name := by
            rw [← hsn, ← hitem2e]
            rfl
          have : item2 = item :=
            List.inj_on_of_nodup_map hnds hitem2m.1 hitem (by rw [hitem2n])
          subst this
          exfalso
          have := hitem2m.2
          simp only [decide_eq_true_eq] at this
          exact this hdb
    · -- the declared store is absent: it is created
      have hnew : mkNewStore item ∈ (stores.filter
          (fun it => decide (it.name ∉ db.map (fun s => s.name)))).map mkNewStore := by
        refine List.mem_map_of_mem _ (List.mem_filter.mpr ⟨hitem, by simpa using hdb⟩)
      constructor
      · refine ⟨mkNewStore item, ?_, rfl⟩
        rw [mem_onupgradeneeded stores db hnds]
        exact ⟨Or.inr hnew, List.mem_map_of_mem _ hitem⟩
      · intro s hs hsn
        rcases ((mem_onupgradeneeded stores db hnds s).mp hs).1 with hs1 | hs2
        · obtain ⟨old2, hold2, hold2e⟩ := List.mem_map.mp hs1
          exfalso
          apply hdb
          have hold2n : old2.name = item.name := by
            rw [← hsn, ← hold2e, upgradeReplace_name]
          rw [← hold2n]
          exact List.mem_map_of_mem _ hold2
        · obtain ⟨item2, hitem2, hitem2e⟩ := List.mem_map.mp hs2
          have hitem2m := List.mem_filter.mp hitem2
          have hitem2n : item2.name = item.name := by
            rw [← hsn, ← hitem2e]
            rfl
          have : item2 = item :=
            List.inj_on_of_nodup_map hnds hitem2m.1 hitem (by rw [hitem2n])
          subst this
          subst hitem2e
          refine ⟨rfl, fun _ => rfl, ?_⟩
          intro old3 hold3 hold3n
          exfalso
          apply hdb
          rw [← hold3n]
          exact List.mem_map_of_mem _ hold3

/-- Witness for C9: the theorem applied to a concrete declaration and
pre-existing schema, discharging its hypotheses. -/
theorem claimC9_witness :
    ∃ s ∈ onupgradeneeded [⟨"a", false, JSVal.str "id", false, []⟩]
      [⟨"b", JSVal.str "k", false, []⟩], s.name = "a" :=
  ((claimC9_upgrade_authoritative [⟨"a", false, JSVal.str "id", false, []⟩]
      [⟨"b", JSVal.str "k", false, []⟩] (by simp) (by simp)).2
    ⟨"a", false, JSVal.str "id", false, []⟩ (List.mem_singleton_self _)).1

/-! ## The transaction queue (`src/test.js` lines 221–247)

`transaction()` keeps a per-facade `_queue` of promises.  Call `i+1` does
`latest.then(() => create())`, so its `create()` — and hence its
`db.transaction(name, mode)` call — runs only after call `i`'s promise has
resolved.  That promise is the one returned by `create()`, which resolves
with the transaction object as soon as `db.transaction(...)` returns, i.e.
at transaction *creation*.  The completion handlers (`oncomplete`,
`onabort`, `onerror`) only clear the cached connection and shift the
queue; nothing in `transaction()` awaits them.

The choreography is modelled as a small-step machine over a trace of
events: `created i` (call `i`'s transaction object is created) and
`completed i` (the engine fires call `i`'s completion, at a time of the
engine's choosing).  The machine may create transaction `i` exactly when
the previous `i` transactions have been created (the `.then` chain), and
may complete any already-created, not-yet-completed transaction at any
time. -/

inductive TxEvent : Type where
  | created (i : Nat)
  | completed (i : Nat)
deriving Repr, DecidableEq

/-- `a` occurs at a strictly earlier position than `b` in the trace. -/
def occursBefore (es : List TxEvent) (a b : TxEvent) : Prop :=
  ∃ i < es.length, ∃ j < es.length, i < j ∧ es.get? i = some a ∧ es.get? j = some b

/-- Reachable states of `n` queued `transaction()` calls: `c` transactions
created so far, `done` the completed ones, `tr` the event trace.
`create` is enabled for call `c` as soon as call `c-1`'s promise has
resolved — which happens at `created (c-1)`, not at its completion;
`complete` fires whenever the engine finishes a created transaction. -/
inductive Reachable (n : Nat) : Nat → List Nat → List TxEvent → Prop where
  | init : Reachable n 0 [] []
  | create : ∀ (c : Nat) (done : List Nat) (tr : List TxEvent),
      Reachable n c done tr → c < n →
      Reachable n (c + 1) done (tr ++ [.created c])
  | complete : ∀ (c : Nat) (done : List Nat) (tr : List TxEvent) (j : Nat),
      Reachable n c done tr → j < c → j ∉ done →
      Reachable n c (j :: done) (tr ++ [.completed j])

/-- Creation events in a trace, in order. -/
def createdEvents (tr : List TxEvent) : List TxEvent :=
  tr.filter (fun e =>
    match e with
    | .created _ => true
    | .completed _ => false)

theorem occursBefore_append_left (tr l : List TxEvent) (a b : TxEvent)
    (h : occursBefore tr a b) : occursBefore (tr ++ l) a b := by
  obtain ⟨i, hi, j, hj, hij, ha, hb⟩ := h
  refine ⟨i, ?_, j, ?_, hij, ?_, ?_⟩
  · simp only [List.length_append]; omega
  · simp only [List.length_append]; omega
  · rw [List.get?_append hi]; exact ha
  · rw [List.get?_append hj]; exact hb

theorem occursBefore_mem_concat (tr : List TxEvent) (a b : TxEvent) (h : a ∈ tr) :
    occursBefore (tr ++ [b]) a b := by
  obtain ⟨i, hia⟩ := List.get?_of_mem h
  obtain ⟨hi, -⟩ := List.get?_eq_some.mp hia
  refine ⟨i, ?_, tr.length, ?_, hi, ?_, ?_⟩
  · simp only [List.length_append, List.length_singleton]; omega
  · simp only [List.length_append, List.length_singleton]; omega
  · rw [List.get?_append hi]; exact hia
  · exact List.get?_concat_length tr b

/-! ## Claim C4 -/

/-- C4, counterexample to the claim as stated.  The claim says a later
writable call's transaction is not opened until the prior one has fully
completed, aborted, or errored.  The trace
`[created 0, created 1, completed 0, completed 1]` is a reachable
execution of two queued calls — the queue chains on the previous call's
*creation* promise, which resolves when `db.transaction` returns — and in
it transaction 1 is created before transaction 0 completes. -/
theorem claimC4_counterexample :
    Reachable 2 2 [1, 0]
      [.created 0, .created 1, .completed 0, .completed 1] ∧
    ¬ occursBefore [.created 0, .created 1, .completed 0, .completed 1]
      (.completed 0) (.created 1) := by
  constructor
  · have h0 : Reachable 2 0 [] [] := Reachable.init
    have h1 := Reachable.create 0 [] [] h0 (by omega)
    have h2 := Reachable.create 1 [] ([] ++ [.created 0]) h1 (by omega)
    have h3 := Reachable.complete 2 [] (([] ++ [.created 0]) ++ [.created 1]) 0 h2
      (by omega) (by simp)
    have h4 := Reachable.complete 2 [0]
      ((([] ++ [.created 0]) ++ [.created 1]) ++ [.completed 0]) 1 h3
      (by omega) (by simp)
    simpa using h4
  · rintro ⟨i, hi, j, hj, hij, ha, hb⟩
    simp only [List.length_cons, List.length_nil] at hi hj
    interval_cases i <;> interval_cases j <;> simp_all

/-- C4 (amended).  The per-facade queue serializes transaction *creation*
in FIFO issue order: in every reachable execution the created transactions
are exactly `0, 1, …, c-1` and appear in the trace in that order, so a
later call's transaction is never created before an earlier call's — but
creation does not wait for the earlier transaction's completion. -/
theorem claimC4_creation_fifo :
    ∀ (n c : Nat) (done : List Nat) (tr : List TxEvent), Reachable n c done tr →
      createdEvents tr = (List.range c).map TxEvent.created ∧
      (∀ i j : Nat, i < j → j < c → occursBefore tr (.created i) (.created j)) := by
  intro n c done tr h
  induction h with
  | init => exact ⟨rfl, fun i j _ hj => absurd hj (by omega)⟩
  | create c done tr hr hc ih =>
    constructor
    · rw [createdEvents, List.filter_append, ← createdEvents, ih.1]
      rw [List.range_succ, List.map_append]
      rfl
    · intro i j hij hj
      rcases Nat.lt_or_ge j c with hjc | hjc
      · exact occursBefore_append_left _ _ _ _ (ih.2 i j hij hjc)
      · have hje : j = c := by omega
        subst hje
        have hmem : TxEvent.created i ∈ tr := by
          have : TxEvent.created i ∈ createdEvents tr := by
            rw [ih.1]
            exact List.mem_map_of_mem _ (List.mem_range.mpr (by omega))
          exact List.mem_of_mem_filter this
        exact occursBefore_mem_concat tr _ _ hmem
  | complete c done tr j hr hjc hjd ih =>
    constructor
    · rw [createdEvents, List.filter_append, ← createdEvents, ih.1]
      simp [createdEvents]
    · intro i j2 hij hj2
      exact occursBefore_append_left _ _ _ _ (ih.2 i j2 hij hj2)

/-- Witness for C4: the amended FIFO theorem applied to the concrete
reachable execution, discharging its hypotheses. -/
theorem claimC4_witness :
    createdEvents [.created 0, .created 1, .completed 0, .completed 1] =
      (List.range 2).map TxEvent.created ∧
    occursBefore [.created 0, .created 1, .completed 0, .completed 1]
      (.created 0) (.created 1) := by
  have hreach : Reachable 2 2 [1, 0]
      [.created 0, .created 1, .completed 0, .completed 1] := by
    have h0 : Reachable 2 0 [] [] := Reachable.init
    have h1 := Reachable.create 0 [] [] h0 (by omega)
    have h2 := Reachable.create 1 [] ([] ++ [.created 0]) h1 (by omega)
    have h3 := Reachable.complete 2 [] (([] ++ [.created 0]) ++ [.created 1]) 0 h2
      (by omega) (by simp)
    have h4 := Reachable.complete 2 [0]
      ((([] ++ [.created 0]) ++ [.created 1]) ++ [.completed 0]) 1 h3
      (by omega) (by simp)
    simpa using h4
  have h := claimC4_creation_fifo 2 2 [1, 0]
    [.created 0, .created 1, .completed 0, .completed 1] hreach
  exact ⟨h.1, h.2 0 1 (by omega) (by omega)⟩

end InDB
